import Mathlib

/-!
# shop-scraper: the Meny fetch engine

A shallow embedding of `src/scraper/product.go` and `src/scraper/meny.go`, and the
properties of the specification proved or refuted on it.

* Records and `newQuantity` (unit normalisation), `sourceRow.product`,
  `sourceRow.pricePoint`, `response.Read`.
* The collector goroutine of `menyRequest.Execute`: the body of its `select`
  (`Collector.receive`) and its loop (`collectorLoop`).
* `menyRequest.Execute` as a transition system over its goroutines: the dispatcher,
  the `range c` loop of the caller, the workers and the collector, with the channels
  `c` and `rateLimit` and the `sync.WaitGroup` as explicit state. A schedule, a list
  of `Action`s, picks the interleaving; `step` is executable.
* `MenyScraper.Fetch`.

Conventions.

* `float64` is an abstract carrier `F` with the operations the code uses
  (`Float64`), so every statement holds for IEEE arithmetic as for any other
  interpretation.
* Library behaviour outside the repository is a parameter: `strings.ToLower`, the
  outcome of the HTTP exchange inside `call`, and the reading of `time.Now`.
* The channels `products`, `pricePoints`, `vendors`, `errors` and `done` are
  unbuffered: a send completes when the collector receives it, so a send and its
  receipt are one step (`Action.deliver`).
* `time.Sleep` and logging outside the collector synchronise nothing and are left out.
-/

namespace Scraper

/-! ## float64 -/

/-- The operations on `float64` that the program uses: the zero value, the
conversion of an untyped integer constant, and division. -/
class Float64 (F : Type) where
  /-- The zero value `0.0`. -/
  zero : F
  /-- An integer constant used at type `float64`, as `1000` in `v / 1000`. -/
  lit : Nat → F
  /-- Division `x / y`. -/
  div : F → F → F

/-- Integers as a stand-in carrier, used only to evaluate concrete runs. -/
instance instFloat64Int : Float64 Int where
  zero := 0
  lit n := n
  div x y := x / y

/-! ## Go maps -/

/-- A Go `map[K]V`: an association list that holds every key at most once.
Iteration order of a Go map is unspecified; the list order here is insertion
order and no statement below depends on it. -/
abbrev GoMap (K V : Type) := List (K × V)

namespace GoMap

variable {K V : Type} [DecidableEq K]

/-- The lookup `v, exists := m[k]`. -/
def get? : GoMap K V → K → Option V
  | [], _ => none
  | (k', v) :: m, k => if k' = k then some v else get? m k

/-- The `exists` flag of `_, exists := m[k]`. -/
def contains (m : GoMap K V) (k : K) : Bool := (m.get? k).isSome

/-- The assignment `m[k] = v`. -/
def set : GoMap K V → K → V → GoMap K V
  | [], k, v => [(k, v)]
  | (k', v') :: m, k, v => if k' = k then (k, v) :: m else (k', v') :: set m k v

/-- The builtin `delete(m, k)`. -/
def delete : GoMap K V → K → GoMap K V
  | [], _ => []
  | (k', v') :: m, k => if k' = k then delete m k else (k', v') :: delete m k

/-- The builtin `len(m)`. -/
def len (m : GoMap K V) : Nat := m.length

/-- The keys of the map. -/
def keys (m : GoMap K V) : List K := m.map Prod.fst

/-- The values of the map, as `for _, v := range m` visits them. -/
def values (m : GoMap K V) : List V := m.map Prod.snd

end GoMap

/-! ## product.go -/

/-- The Go type `Unit`, a string. -/
abbrev UnitName := String

/-- The variable `UnitVolume`. -/
def UnitVolume : UnitName := "L"
/-- The variable `UnitWeight`. -/
def UnitWeight : UnitName := "kg"
/-- The variable `UnitAmount`. -/
def UnitAmount : UnitName := "pcs"

/-- The struct `Vendor`. -/
structure Vendor where
  ID : String
  Name : String
deriving DecidableEq, Repr

/-- The struct `Volume`. -/
structure Volume (F : Type) where
  Unit : UnitName
  Value : F
deriving DecidableEq, Repr

/-- The struct `Category`: a name and an optional parent. -/
inductive Category where
  | root (Name : String)
  | child (Name : String) (Parent : Category)
deriving DecidableEq, Repr

/-- The struct `Product`; the pointers `VendorID` and `ImageURL` are options. -/
structure Product (F : Type) where
  ID : String
  Name : String
  Description : String
  Qty : Volume F
  VendorID : Option String
  ImageURL : Option String
  Categories : List Category
deriving DecidableEq, Repr

/-- The struct `PricePoint`; `Date` is a time in nanoseconds since the zero time. -/
structure PricePoint (F : Type) where
  ProductID : String
  RetailID : String
  StoreID : Option String
  Price : F
  Date : Nat
  IsOffer : Bool
deriving DecidableEq, Repr

/-- The function `newQuantity`. `toLower` is `strings.ToLower`; the error is the
message built by `fmt.Errorf`. -/
def newQuantity {F : Type} [Float64 F] (toLower : String → String) (value : F) (unit : String) :
    Except String (Volume F) :=
  let v : F := value
  let s := toLower unit
  if s = "kg" then .ok { Unit := UnitWeight, Value := v }
  else if s = "g" then .ok { Unit := UnitWeight, Value := Float64.div v (Float64.lit 1000) }
  else if s = "hg" then .ok { Unit := UnitWeight, Value := Float64.div v (Float64.lit 100) }
  else if s = "l" then .ok { Unit := UnitVolume, Value := v }
  else if s = "ml" then .ok { Unit := UnitVolume, Value := Float64.div v (Float64.lit 1000) }
  else if s = "dl" then .ok { Unit := UnitVolume, Value := Float64.div v (Float64.lit 10) }
  else if s = "stk" then .ok { Unit := UnitAmount, Value := v }
  else if s = "c" then .ok { Unit := UnitAmount, Value := v }
  else if s = "pcs" then .ok { Unit := UnitAmount, Value := v }
  else .error ("unknown unit: '" ++ unit ++ "'")

/-! ## meny.go: rows -/

/-- The struct `sourceRow`. -/
structure sourceRow (F : Type) where
  Title : String
  SubTitle : String
  Vendor : String
  IsOffer : Bool
  ImageGtin : String
  PricePerUnit : F
  PricePerUnitOriginal : F
  MeasurementValue : F
  MeasureMentType : String
  Unit : String
  StoreId : String
  CategoryName : String
  SupplierId : Int
deriving DecidableEq, Repr

/-- The zero value `sourceRow{}`. -/
def sourceRow.zero {F : Type} [Float64 F] : sourceRow F :=
  { Title := "", SubTitle := "", Vendor := "", IsOffer := false, ImageGtin := "",
    PricePerUnit := Float64.zero, PricePerUnitOriginal := Float64.zero,
    MeasurementValue := Float64.zero, MeasureMentType := "", Unit := "", StoreId := "",
    CategoryName := "", SupplierId := 0 }

/-- The function `strconv.Itoa`: the decimal text of an integer. -/
def Itoa (n : Int) : String := toString n

/-- The duration `24 * time.Hour` in nanoseconds. -/
def dayNanos : Nat := 24 * 3600 * 1000000000

/-- The method `Time.Truncate`: round down to a multiple of `d` since the zero time. -/
def truncate (t d : Nat) : Nat := t - t % d

section Rows

variable {F : Type} [Float64 F]

/-- The method `sourceRow.volume`. -/
def sourceRow.volume (toLower : String → String) (s : sourceRow F) : Except String (Volume F) :=
  newQuantity toLower s.MeasurementValue s.MeasureMentType

/-- The method `sourceRow.id`. -/
def sourceRow.id (s : sourceRow F) : String := s.ImageGtin

/-- The method `sourceRow.product`. -/
def sourceRow.product (toLower : String → String) (s : sourceRow F) : Except String (Product F) :=
  match s.volume toLower with
  | .error err => .error err
  | .ok q =>
    let vendorId := Itoa s.SupplierId
    let image := s.ImageGtin
    .ok { ID := s.id, Name := s.Title, Description := s.SubTitle, Qty := q,
          VendorID := some vendorId, ImageURL := some image, Categories := [] }

/-- The method `sourceRow.pricePoint`; `now` is the reading of `time.Now()`. -/
def sourceRow.pricePoint (now : Nat) (s : sourceRow F) : PricePoint F :=
  { ProductID := s.id, RetailID := "meny", StoreID := some s.StoreId, Price := s.PricePerUnit,
    Date := truncate now dayNanos, IsOffer := s.IsOffer }

end Rows

/-- The struct `rowError`: a row and the error text. -/
structure rowError (F : Type) where
  row : sourceRow F
  err : String
deriving DecidableEq, Repr

/-- A value of the interface `error`, as the collector's type switch sees it:
a `rowError` or anything else. -/
inductive GoError (F : Type) where
  | rowErr (re : rowError F)
  | other (msg : String)
deriving DecidableEq, Repr

/-- One send to the collector: a value on one of the channels `products`,
`pricePoints`, `vendors`, `errors`, `done`. -/
inductive Event (F : Type) where
  | product (p : Product F)
  | pricePoint (pp : PricePoint F)
  | vendor (v : Vendor)
  | error (e : GoError F)
  | done (page : Int)
deriving DecidableEq, Repr

/-- The method `response.Read`: the sends it performs, in order. `clock i` is the
reading of `time.Now()` while row `i` is converted. -/
def response.Read {F : Type} [Float64 F] (toLower : String → String) (clock : Nat → Nat) :
    List (sourceRow F) → List (Event F)
  | [] => []
  | hit :: rest =>
    match hit.product toLower with
    | .error err =>
      Event.error (.rowErr { row := hit, err := err })
        :: response.Read toLower (fun i => clock (i + 1)) rest
    | .ok p =>
      Event.product p
        :: Event.pricePoint (hit.pricePoint (clock 0))
        :: Event.vendor { ID := Itoa hit.SupplierId, Name := hit.Vendor }
        :: response.Read toLower (fun i => clock (i + 1)) rest

/-! ## meny.go: the collector goroutine -/

/-- A line the collector goroutine writes to the logger. -/
inductive LogEntry (F : Type) where
  | info (msg : String)
  | warnProduct (id name : String)
  | warnPricePoint (id : String)
  | error (e : GoError F)
deriving DecidableEq, Repr

/-- The variables the collector goroutine owns: the three result maps, the
`remaining` set and the lines it has logged. -/
structure Collector (F : Type) where
  productResult : GoMap String (Product F)
  pricePointResult : GoMap String (PricePoint F)
  vendorResult : GoMap String Vendor
  remaining : GoMap Int Unit
  log : List (LogEntry F)
deriving DecidableEq, Repr

/-- The state when the collector goroutine enters its loop: empty result maps,
`remaining` filled from `m.pages`, and the start-up line logged. -/
def newCollector {F : Type} (pages : List Int) : Collector F :=
  { productResult := [], pricePointResult := [], vendorResult := [],
    remaining := pages.foldl (fun r page => GoMap.set r page ()) [],
    log := [LogEntry.info "collector routine started"] }

/-- One pass through the `select` of the collector goroutine, on the event received. -/
def Collector.receive {F : Type} (st : Collector F) : Event F → Collector F
  | .product p =>
    { st with
      log := if st.productResult.contains p.ID then st.log ++ [LogEntry.warnProduct p.ID p.Name]
             else st.log
      productResult := st.productResult.set p.ID p }
  | .pricePoint pp =>
    { st with
      log := if st.pricePointResult.contains pp.ProductID
             then st.log ++ [LogEntry.warnPricePoint pp.ProductID] else st.log
      pricePointResult := st.pricePointResult.set pp.ProductID pp }
  | .vendor v => { st with vendorResult := st.vendorResult.set v.ID v }
  | .error (.rowErr re) => { st with log := st.log ++ [LogEntry.error (.rowErr re)] }
  | .error (.other msg) => { st with log := st.log ++ [LogEntry.error (.other msg)] }
  | .done p => { st with remaining := st.remaining.delete p }

/-- The loop of the collector goroutine, fed the events in their order of arrival:
`for { select { ... }; if len(remaining) == 0 { return } }`. The flag says whether
the goroutine returned; with no event left it is blocked in `select`. -/
def collectorLoop {F : Type} (st : Collector F) : List (Event F) → Collector F × Bool
  | [] => (st, false)
  | e :: rest =>
    let st' := st.receive e
    if st'.remaining.len = 0 then (st', true) else collectorLoop st' rest

/-- The events the loop receives before it returns: those of `collectorLoop`. -/
def processed {F : Type} (st : Collector F) : List (Event F) → List (Event F)
  | [] => []
  | e :: rest =>
    let st' := st.receive e
    if st'.remaining.len = 0 then [e] else e :: processed st' rest

/-! ## meny.go: the request -/

/-- The struct `menyRequest` (the fields `Execute` reads). `parallel` is a channel
capacity (a negative one makes `make` panic and has no run), `rl` a duration in
nanoseconds. -/
structure menyRequest where
  pagesize : Int
  parallel : Nat
  rl : Nat
  pages : List Int
deriving DecidableEq, Repr

/-- The type `option`. -/
abbrev option := menyRequest → menyRequest

/-- The option `rateLimit`. -/
def rateLimit (d : Nat) : option := fun m => { m with rl := d }
/-- The option `parallel`. -/
def parallel (n : Nat) : option := fun m => { m with parallel := n }
/-- The option `pageSize`. -/
def pageSize (size : Int) : option := fun m => { m with pagesize := size }
/-- The option `pages`. -/
def pages (ps : List Int) : option := fun m => { m with pages := ps }

/-- The list built by the loop of `pageRange`: `start, start+1, ..., stop`. -/
def pageRangeList (start stop : Int) : List Int :=
  (List.range (stop + 1 - start).toNat).map (fun (i : Nat) => start + (i : Int))

/-- The option `pageRange`. -/
def pageRange (start stop : Int) : option := pages (pageRangeList start stop)

/-- The function `newMenyApiRequest`. -/
def newMenyApiRequest (opts : List option) : menyRequest :=
  opts.foldl (fun o opt => opt o) { parallel := 1, pagesize := 5, pages := [1], rl := 0 }

/-- What `Execute` cannot decide itself: `strings.ToLower`, the outcome of
`call(httpClient, page, pagesize)` (the rows, or the error text), and the reading
of `time.Now()` while row `i` of a page is converted. -/
structure Env (F : Type) where
  toLower : String → String
  call : Int → Int → Except String (List (sourceRow F))
  now : Int → Nat → Nat

/-- The sends of one worker goroutine of `Execute`, in program order: the error of a
failed `call` or the sends of `Read`, then (after `time.Sleep`) `done <- page`. -/
def workerSends {F : Type} [Float64 F] (env : Env F) (m : menyRequest) (page : Int) :
    List (Event F) :=
  (match env.call page m.pagesize with
    | .error err => [Event.error (.rowErr { row := sourceRow.zero, err := err })]
    | .ok rows => response.Read env.toLower (env.now page) rows)
  ++ [Event.done page]

/-- A worker goroutine: its page, how many of its sends have completed, and
whether its deferred calls (token release, `wg.Done`) have run. -/
structure Worker where
  page : Int
  pc : Nat
  finished : Bool
deriving DecidableEq, Repr

/-- Where the goroutine that called `Execute` stands: in `for page := range c`,
in `wg.Wait()`, or past it. -/
inductive MainPc where
  | ranging
  | waiting
  | returned
deriving DecidableEq, Repr

/-- The state of a run of `Execute`. `todo` and `holding` belong to the dispatcher
goroutine (`holding` is the page it took a token for and has not yet sent on `c`),
`c` and `rateLimit` are the buffered channels, `wg` the WaitGroup counter. -/
structure State (F : Type) where
  collector : Collector F
  collecting : Bool
  todo : List Int
  holding : Option Int
  c : List Int
  closed : Bool
  rateLimit : Nat
  workers : List Worker
  wg : Nat
  main : MainPc
deriving DecidableEq, Repr

/-- The loop `for i := 0; i < m.parallel; i++ { rateLimit <- struct{}{} }` with `n`
iterations left and `len` tokens in the channel of capacity `cap`; `none` when a
send would block. -/
def prefill (cap : Nat) : Nat → Nat → Option Nat
  | 0, len => some len
  | n + 1, len => if len < cap then prefill cap n (len + 1) else none

/-- The state of `Execute` once the collector goroutine is started, `rateLimit` is
filled and the dispatcher goroutine is started. -/
def init {F : Type} (m : menyRequest) : Option (State F) :=
  (prefill m.parallel m.parallel 0).map fun tokens =>
    { collector := newCollector m.pages, collecting := true, todo := m.pages, holding := none,
      c := [], closed := false, rateLimit := tokens, workers := [], wg := 1,
      main := MainPc.ranging }

/-- The steps of a run, one per synchronisation of a goroutine. -/
inductive Action where
  /-- The dispatcher receives a token: `<-rateLimit`. -/
  | acquire
  /-- The dispatcher sends the page: `c <- page`. -/
  | enqueue
  /-- The dispatcher closes `c`. -/
  | close
  /-- The caller receives a page from `c`, does `wg.Add(1)` and starts the worker. -/
  | spawn
  /-- The caller leaves `for page := range c`: `c` is closed and drained. -/
  | endRange
  /-- Worker `i` completes its next send and the collector handles it. -/
  | deliver (i : Nat)
  /-- Worker `i` runs its deferred calls: `rateLimit <- struct{}{}`, `wg.Done()`. -/
  | release (i : Nat)
  /-- The call `wg.Wait()` of the caller returns. -/
  | wait
deriving DecidableEq, Repr

/-- One step of `Execute`; `none` when the goroutine concerned is blocked or is not
at that point of its program. A send on a buffered channel blocks when the buffer is
full, a receive when it is empty; the collector's deferred `wg.Done()` runs in the
step in which it returns. -/
def step {F : Type} [Float64 F] (env : Env F) (m : menyRequest) (s : State F) :
    Action → Option (State F)
  | .acquire =>
    match s.holding, s.todo with
    | none, page :: rest =>
      if 0 < s.rateLimit then
        some { s with rateLimit := s.rateLimit - 1, holding := some page, todo := rest }
      else none
    | _, _ => none
  | .enqueue =>
    match s.holding with
    | some page =>
      if s.c.length < m.parallel then some { s with c := s.c ++ [page], holding := none }
      else none
    | none => none
  | .close =>
    if s.holding = none ∧ s.todo = [] ∧ s.closed = false then some { s with closed := true }
    else none
  | .spawn =>
    match s.main, s.c with
    | .ranging, page :: rest =>
      some { s with c := rest, wg := s.wg + 1,
                    workers := s.workers ++ [{ page := page, pc := 0, finished := false }] }
    | _, _ => none
  | .endRange =>
    if s.main = MainPc.ranging ∧ s.c = [] ∧ s.closed = true then
      some { s with main := MainPc.waiting }
    else none
  | .deliver i =>
    match s.workers[i]? with
    | some w =>
      match (workerSends env m w.page)[w.pc]? with
      | some e =>
        if s.collecting = true then
          let col := s.collector.receive e
          let ws := s.workers.set i { w with pc := w.pc + 1 }
          if col.remaining.len = 0 then
            some { s with collector := col, collecting := false, wg := s.wg - 1, workers := ws }
          else some { s with collector := col, workers := ws }
        else none
      | none => none
    | none => none
  | .release i =>
    match s.workers[i]? with
    | some w =>
      if w.finished = false ∧ w.pc = (workerSends env m w.page).length
          ∧ s.rateLimit < m.parallel then
        some { s with rateLimit := s.rateLimit + 1, wg := s.wg - 1,
                      workers := s.workers.set i { w with finished := true } }
      else none
    | none => none
  | .wait =>
    if s.main = MainPc.waiting ∧ s.wg = 0 then some { s with main := MainPc.returned }
    else none

/-- The steps of a schedule, in order. -/
def run {F : Type} [Float64 F] (env : Env F) (m : menyRequest) :
    State F → List Action → Option (State F)
  | s, [] => some s
  | s, a :: rest =>
    match step env m s a with
    | some s' => run env m s' rest
    | none => none

/-- The state `Execute` is in after the steps of `schedule`. -/
def exec {F : Type} [Float64 F] (env : Env F) (m : menyRequest) (schedule : List Action) :
    Option (State F) :=
  match init m with
  | some s => run env m s schedule
  | none => none

/-- The struct `Execute` returns. -/
structure ExecuteResult (F : Type) where
  products : List (Product F)
  prices : List (PricePoint F)
deriving DecidableEq, Repr

/-- The method `menyRequest.Execute` under a schedule: the result it returns, if
the schedule takes it to its `return`. -/
def Execute {F : Type} [Float64 F] (env : Env F) (m : menyRequest) (schedule : List Action) :
    Option (ExecuteResult F) :=
  match exec env m schedule with
  | some s =>
    if s.main = MainPc.returned then
      some { products := s.collector.productResult.values,
             prices := s.collector.pricePointResult.values }
    else none
  | none => none

/-- The struct `FetchResult`. -/
structure FetchResult (F : Type) where
  Products : List (Product F)
  PricePoints : List (PricePoint F)
  Vendors : List Vendor
deriving DecidableEq, Repr

/-- What `Fetch` prints, one entity per line. -/
inductive Printed (F : Type) where
  | pricePoint (pp : PricePoint F)
  | product (p : Product F)
deriving DecidableEq, Repr

/-- The request `Fetch` builds. -/
def fetchRequest : menyRequest :=
  newMenyApiRequest [parallel 4, pageSize 100, rateLimit (500 * 1000000), pageRange 1 500]

/-- The method `MenyScraper.Fetch` on the request `m` (`fetchRequest` in the source):
the lines printed, the result and the error returned, if `Execute` returns. -/
def FetchOn {F : Type} [Float64 F] (env : Env F) (m : menyRequest) (schedule : List Action) :
    Option (List (Printed F) × FetchResult F × Option String) :=
  match Execute env m schedule with
  | some resp =>
    some (resp.prices.map Printed.pricePoint ++ resp.products.map Printed.product,
          { Products := [], PricePoints := [], Vendors := [] }, none)
  | none => none

/-- The method `MenyScraper.Fetch`. -/
def MenyScraper.Fetch {F : Type} [Float64 F] (env : Env F) (schedule : List Action) :
    Option (List (Printed F) × FetchResult F × Option String) :=
  FetchOn env fetchRequest schedule

/-! ## Vocabulary of the statements -/

/-- ASCII lower-casing: `strings.ToLower` restricted to ASCII text. It instantiates
the parameter `toLower` where a run is evaluated on concrete rows. -/
def lowerAscii (s : String) : String :=
  String.mk (s.data.map fun ch => if 'A' ≤ ch ∧ ch ≤ 'Z' then Char.ofNat (ch.toNat + 32) else ch)

/-- What one row contributes to the sends of `Read`, in the words of the
specification: product, price point and vendor when the row normalises, one row
error otherwise. -/
def rowSends {F : Type} [Float64 F] (toLower : String → String) (now : Nat) (row : sourceRow F) :
    List (Event F) :=
  match row.product toLower with
  | .ok p =>
    [Event.product p, Event.pricePoint (row.pricePoint now),
     Event.vendor { ID := Itoa row.SupplierId, Name := row.Vendor }]
  | .error err => [Event.error (.rowErr { row := row, err := err })]

/-- Is the event a page-done signal? -/
def Event.isDone {F : Type} : Event F → Bool
  | .done _ => true
  | _ => false

/-- The products among a sequence of events, in order of arrival. -/
def productsOf {F : Type} : List (Event F) → List (Product F)
  | [] => []
  | .product p :: rest => p :: productsOf rest
  | _ :: rest => productsOf rest

/-- The price points among a sequence of events, in order of arrival. -/
def pricePointsOf {F : Type} : List (Event F) → List (PricePoint F)
  | [] => []
  | .pricePoint pp :: rest => pp :: pricePointsOf rest
  | _ :: rest => pricePointsOf rest

/-- The vendors among a sequence of events, in order of arrival. -/
def vendorsOf {F : Type} : List (Event F) → List Vendor
  | [] => []
  | .vendor v :: rest => v :: vendorsOf rest
  | _ :: rest => vendorsOf rest

/-- The last element of a list that satisfies `q`. -/
def lastWith {A : Type} (q : A → Bool) : List A → Option A
  | [] => none
  | a :: rest =>
    match lastWith q rest with
    | some b => some b
    | none => if q a then some a else none

/-- The number of arrivals whose key has arrived before (`seen` holds the keys
that arrived earlier). -/
def repeats (seen : List String) : List String → Nat
  | [] => 0
  | k :: rest => (if k ∈ seen then 1 else 0) + repeats (k :: seen) rest

/-- Is the log line a duplicate-product warning? -/
def LogEntry.isWarnProduct {F : Type} : LogEntry F → Bool
  | .warnProduct _ _ => true
  | _ => false

/-- Is the log line a duplicate-price-point warning? -/
def LogEntry.isWarnPricePoint {F : Type} : LogEntry F → Bool
  | .warnPricePoint _ => true
  | _ => false

/-- Is the log line a warning (level `Warn`)? -/
def LogEntry.isWarn {F : Type} : LogEntry F → Bool
  | .warnProduct _ _ => true
  | .warnPricePoint _ => true
  | _ => false

/-! ## Invariants of a run of `Execute` -/

/-- The workers whose deferred calls have not run yet. -/
def unfinished {F : Type} (s : State F) : Nat :=
  s.workers.countP fun w => !w.finished

/-- The pages between token acquire (the dispatcher's `<-rateLimit`) and token
release (the worker's deferred `rateLimit <- struct{}{}`): the page the dispatcher
holds, the pages buffered in `c`, and the pages of the workers still running. -/
def inFlight {F : Type} (s : State F) : Nat :=
  (if s.holding.isSome then 1 else 0) + s.c.length + unfinished s

/-- The sends worker `w` has completed. -/
def Worker.sent {F : Type} [Float64 F] (env : Env F) (m : menyRequest) (w : Worker) :
    List (Event F) :=
  (workerSends env m w.page).take w.pc

/-- What holds in every state of a run of `Execute`. -/
structure Inv {F : Type} [Float64 F] (env : Env F) (m : menyRequest) (s : State F) : Prop where
  /-- Tokens in the pool plus pages in flight make up the pool size. -/
  tokens : s.rateLimit + inFlight s = m.parallel
  /-- The WaitGroup counts the collector, while it runs, and the running workers. -/
  wg : s.wg = (if s.collecting then 1 else 0) + unfinished s
  /-- The pages, in order: started, buffered in `c`, held by the dispatcher, to do. -/
  pages : s.workers.map (fun w => w.page) ++ (s.c ++ (s.holding.toList ++ s.todo)) = m.pages
  /-- A worker has completed at most its sends, and all of them once it has finished. -/
  pc : ∀ (i : Nat) (w : Worker), s.workers[i]? = some w →
    w.pc ≤ (workerSends env m w.page).length
      ∧ (w.finished = true → w.pc = (workerSends env m w.page).length)
  /-- The dispatcher closes `c` after its last page. -/
  closed : s.closed = true → s.holding = none ∧ s.todo = []
  /-- The caller leaves the `range` loop on a closed and drained `c`. -/
  main : s.main ≠ MainPc.ranging → s.c = [] ∧ s.closed = true
  /-- The call `wg.Wait()` returns on a zero counter. -/
  returned : s.main = MainPc.returned → s.wg = 0
  /-- The collector returns on an empty `remaining` only. -/
  exited : s.collecting = false → s.collector.remaining.len = 0
  /-- With pages to fetch, the collector has returned once `remaining` is empty. -/
  collecting : m.pages ≠ [] → s.collector.remaining.len = 0 → s.collecting = false
  /-- A page is in `remaining` until a worker for it has sent its `done`. -/
  remaining : ∀ p, p ∈ s.collector.remaining.keys ↔
    p ∈ m.pages ∧ ∀ (i : Nat) (w : Worker), s.workers[i]? = some w → w.page = p →
      w.pc < (workerSends env m p).length
  /-- The product map holds each key once. -/
  nodup : s.collector.productResult.keys.Nodup
  /-- The keys of the product map are the IDs of the products sent so far. -/
  products : ∀ k, k ∈ s.collector.productResult.keys ↔
    ∃ (i : Nat) (w : Worker), s.workers[i]? = some w
      ∧ k ∈ (productsOf (w.sent env m)).map fun p => p.ID

/-- The steps a state still has before it, counted generously: every step of a run
takes one off. -/
def budget {F : Type} [Float64 F] (env : Env F) (m : menyRequest) (s : State F) : Nat :=
  (s.todo.map fun p => (workerSends env m p).length + 4).sum
  + (s.holding.toList.map fun p => (workerSends env m p).length + 3).sum
  + (s.c.map fun p => (workerSends env m p).length + 2).sum
  + (s.workers.map fun w =>
      if w.finished then 0 else (workerSends env m w.page).length - w.pc + 1).sum
  + (if s.closed then 0 else 1)
  + (match s.main with
      | .ranging => 2
      | .waiting => 1
      | .returned => 0)

/-! ## Vocabulary of the statements about whole runs -/

/-- Does `sourceRow.product` succeed on the row? -/
def normalises {F : Type} [Float64 F] (toLower : String → String) (row : sourceRow F) : Bool :=
  match row.product toLower with
  | .ok _ => true
  | .error _ => false

/-- The rows of a page that count in the specification: those of a page that was
fetched, for which `sourceRow.product` succeeds; none for a page whose `call` failed. -/
def normalisedRows {F : Type} [Float64 F] (env : Env F) (m : menyRequest) (page : Int) :
    List (sourceRow F) :=
  match env.call page m.pagesize with
  | .ok rows => rows.filter fun row => normalises env.toLower row
  | .error _ => []

/-- The product codes (`ImageGtin`) of the normalised rows of all pages of the request. -/
def normalisedCodes {F : Type} [Float64 F] (env : Env F) (m : menyRequest) : List String :=
  m.pages.flatMap fun page => (normalisedRows env m page).map fun row => row.ImageGtin

/-- The number of normalised rows over all pages of the request. -/
def normalisedCount {F : Type} [Float64 F] (env : Env F) (m : menyRequest) : Nat :=
  (m.pages.map fun page => (normalisedRows env m page).length).sum

/-- A row with the given product code, measurement type and supplier, all other
fields zero. -/
def rowOf (code unit : String) (supplier : Int) : sourceRow Int :=
  { (sourceRow.zero : sourceRow Int) with
    ImageGtin := code, Title := code, MeasureMentType := unit, SupplierId := supplier }

/-- The remote catalogue of the specification's example: page 1 holds the rows A
and B, page 2 the rows B and C, every other page fails. -/
def exampleEnv : Env Int :=
  { toLower := lowerAscii,
    call := fun page _ =>
      if page = 1 then .ok [rowOf "A" "KG" 7, rowOf "B" "g" 8]
      else if page = 2 then .ok [rowOf "B" "ml" 8, rowOf "C" "stk" 9]
      else .error "page not found",
    now := fun _ _ => 0 }

/-- The request of the specification's example: pages 1 and 2, page size 2,
parallelism 1, delay 0. -/
def exampleRequest : menyRequest :=
  newMenyApiRequest [parallel 1, pageSize 2, rateLimit 0, pages [1, 2]]

/-- A complete schedule of the example: page 1 is fetched and delivered, then page 2. -/
def exampleSchedule : List Action :=
  [Action.acquire, Action.enqueue, Action.spawn,
   Action.deliver 0, Action.deliver 0, Action.deliver 0, Action.deliver 0,
   Action.deliver 0, Action.deliver 0, Action.deliver 0, Action.release 0,
   Action.acquire, Action.enqueue, Action.close, Action.spawn, Action.endRange,
   Action.deliver 1, Action.deliver 1, Action.deliver 1, Action.deliver 1,
   Action.deliver 1, Action.deliver 1, Action.deliver 1, Action.release 1, Action.wait]

/-- The state of a run over no pages at all: nothing to dispatch, no worker, and the
collector in its `select` with `remaining` empty. -/
def Idle {F : Type} (s : State F) : Prop :=
  s.workers = [] ∧ s.c = [] ∧ s.holding = none ∧ s.todo = [] ∧ s.collecting = true
    ∧ s.wg = 1 ∧ s.main ≠ MainPc.returned ∧ s.collector.remaining = []

/-- The value `&FetchResult{}` that `Fetch` returns. -/
def emptyFetchResult {F : Type} : FetchResult F :=
  { Products := [], PricePoints := [], Vendors := [] }

/-- What `Fetch` prints for a final state of `Execute`: the price points, then
the products. -/
def printedOf {F : Type} (s : State F) : List (Printed F) :=
  s.collector.pricePointResult.values.map Printed.pricePoint
    ++ s.collector.productResult.values.map Printed.product

/-- Is the log line a duplicate warning that carries the product code `id`? -/
def LogEntry.warnsAbout {F : Type} (id : String) : LogEntry F → Bool
  | .warnProduct i _ => decide (i = id)
  | .warnPricePoint i => decide (i = id)
  | _ => false

/-- What holds in every state of a run of `Execute` with a pool of one token: the
collector has received the sends of the workers in the order the workers were
started, and only the worker started last can still be running. -/
structure Sequential {F : Type} [Float64 F] (env : Env F) (m : menyRequest) (s : State F) :
    Prop where
  /-- The collector state is the result of the sends so far, worker after worker. -/
  collector : s.collector
    = (s.workers.flatMap fun w => w.sent env m).foldl Collector.receive (newCollector m.pages)
  /-- Every worker but the last has finished. -/
  earlier : ∀ (i : Nat) (w : Worker), s.workers[i]? = some w → i + 1 < s.workers.length →
    w.finished = true

/-! ## Go maps: lookup, assignment, deletion -/

namespace GoMap

variable {K V : Type} [DecidableEq K]

theorem get?_set_self (m : GoMap K V) (k : K) (v : V) : (m.set k v).get? k = some v := by
  induction m with
  | nil => simp [set, get?]
  | cons a m ih =>
    obtain ⟨k', v'⟩ := a
    by_cases h : k' = k <;> simp [set, get?, h, ih]

theorem get?_set_ne (m : GoMap K V) {k k' : K} (v : V) (h : k ≠ k') :
    (m.set k v).get? k' = m.get? k' := by
  induction m with
  | nil => simp [set, get?, h]
  | cons a m ih =>
    obtain ⟨k'', v''⟩ := a
    by_cases h1 : k'' = k
    · subst h1; simp [set, get?, h]
    · by_cases h2 : k'' = k'
      · subst h2; simp [set, get?, h1]
      · simp [set, get?, h1, h2, ih]

theorem get?_eq_none_iff (m : GoMap K V) (k : K) : m.get? k = none ↔ k ∉ m.keys := by
  induction m with
  | nil => simp [get?, keys]
  | cons a m ih =>
    obtain ⟨k', v'⟩ := a
    by_cases h : k' = k
    · simp [get?, keys, h]
    · have h' : ¬ k = k' := fun e => h e.symm
      simpa [get?, keys, h, h'] using ih

theorem contains_iff (m : GoMap K V) (k : K) : m.contains k = true ↔ k ∈ m.keys := by
  have := get?_eq_none_iff m k
  unfold contains
  cases hg : m.get? k <;> simp_all

theorem contains_eq_false_iff (m : GoMap K V) (k : K) : m.contains k = false ↔ k ∉ m.keys := by
  rw [← contains_iff]; simp

theorem mem_keys_set (m : GoMap K V) (k k' : K) (v : V) :
    k' ∈ (m.set k v).keys ↔ k' = k ∨ k' ∈ m.keys := by
  induction m with
  | nil => simp [set, keys]
  | cons a m ih =>
    obtain ⟨k'', v''⟩ := a
    by_cases h : k'' = k
    · subst h; simp [set, keys]
    · simp only [keys] at ih
      simp only [set, h, keys, if_false, List.map_cons, List.mem_cons, ih]
      tauto

theorem nodup_keys_set (m : GoMap K V) (k : K) (v : V) (h : m.keys.Nodup) :
    (m.set k v).keys.Nodup := by
  induction m with
  | nil => simp [set, keys]
  | cons a m ih =>
    obtain ⟨k', v'⟩ := a
    simp only [keys, List.map_cons, List.nodup_cons] at h
    by_cases hk : k' = k
    · subst hk; simpa [set, keys] using h
    · have ih' := ih h.2
      have hm := mem_keys_set m k k' v
      simp only [keys] at ih' hm
      simp only [set, hk, keys, if_false, List.map_cons, List.nodup_cons, hm]
      exact ⟨by simp [hk, h.1], ih'⟩

theorem len_set (m : GoMap K V) (k : K) (v : V) :
    (m.set k v).len = if m.contains k then m.len else m.len + 1 := by
  induction m with
  | nil => simp [set, len, contains, get?]
  | cons a m ih =>
    obtain ⟨k', v'⟩ := a
    by_cases hk : k' = k
    · subst hk; simp [set, len, contains, get?]
    · simp only [len, contains] at ih
      simp only [set, hk, len, contains, get?, if_false, List.length_cons, ih]
      split <;> rfl

theorem mem_keys_delete (m : GoMap K V) (k k' : K) :
    k' ∈ (m.delete k).keys ↔ k' ≠ k ∧ k' ∈ m.keys := by
  induction m with
  | nil => simp [delete, keys]
  | cons a m ih =>
    obtain ⟨k'', v''⟩ := a
    simp only [keys] at ih
    by_cases h : k'' = k
    · subst h
      simp only [delete, keys, if_true, ih, List.map_cons, List.mem_cons]
      tauto
    · simp only [delete, h, keys, if_false, List.map_cons, List.mem_cons, ih]
      constructor
      · rintro (rfl | ⟨h1, h2⟩)
        · exact ⟨h, Or.inl rfl⟩
        · exact ⟨h1, Or.inr h2⟩
      · rintro ⟨h1, rfl | h2⟩
        · exact Or.inl rfl
        · exact Or.inr ⟨h1, h2⟩

theorem len_eq_zero_iff (m : GoMap K V) : m.len = 0 ↔ ∀ k, k ∉ m.keys := by
  cases m with
  | nil => simp [len, keys]
  | cons a m =>
    simp only [len, keys, List.length_cons, List.map_cons, List.mem_cons, not_or]
    constructor
    · intro h; omega
    · intro h; exact absurd rfl (h a.1).1

end GoMap

theorem GoMap.length_values {K V : Type} (m : GoMap K V) : m.values.length = m.len := by
  simp [GoMap.values, GoMap.len]

theorem GoMap.length_keys {K V : Type} (m : GoMap K V) : m.keys.length = m.len := by
  simp [GoMap.keys, GoMap.len]

/-! ## Unit normalisation -/

/-- C5: `newQuantity(v, s)` decides on the lower-cased `s`: "kg", "g", "hg" give
unit kg with value `v`, `v/1000`, `v/100`; "l", "ml", "dl" give unit L with value
`v`, `v/1000`, `v/10`; "stk", "c", "pcs" give unit pcs with value `v`; every other
string gives the error; so the unit of a successful result is kg, L or pcs. -/
theorem newQuantity_table {F : Type} [Float64 F] (toLower : String → String) (v : F)
    (s : String) :
    (toLower s = "kg" → newQuantity toLower v s = .ok { Unit := "kg", Value := v })
    ∧ (toLower s = "g" → newQuantity toLower v s
        = .ok { Unit := "kg", Value := Float64.div v (Float64.lit 1000) })
    ∧ (toLower s = "hg" → newQuantity toLower v s
        = .ok { Unit := "kg", Value := Float64.div v (Float64.lit 100) })
    ∧ (toLower s = "l" → newQuantity toLower v s = .ok { Unit := "L", Value := v })
    ∧ (toLower s = "ml" → newQuantity toLower v s
        = .ok { Unit := "L", Value := Float64.div v (Float64.lit 1000) })
    ∧ (toLower s = "dl" → newQuantity toLower v s
        = .ok { Unit := "L", Value := Float64.div v (Float64.lit 10) })
    ∧ (toLower s = "stk" → newQuantity toLower v s = .ok { Unit := "pcs", Value := v })
    ∧ (toLower s = "c" → newQuantity toLower v s = .ok { Unit := "pcs", Value := v })
    ∧ (toLower s = "pcs" → newQuantity toLower v s = .ok { Unit := "pcs", Value := v })
    ∧ (toLower s ∉ ["kg", "g", "hg", "l", "ml", "dl", "stk", "c", "pcs"] →
        newQuantity toLower v s = .error ("unknown unit: '" ++ s ++ "'"))
    ∧ (∀ q, newQuantity toLower v s = .ok q → q.Unit = "kg" ∨ q.Unit = "L" ∨ q.Unit = "pcs") := by
  refine ⟨?_, ?_, ?_, ?_, ?_, ?_, ?_, ?_, ?_, ?_, ?_⟩
  · intro h; simp [newQuantity, h, UnitWeight]
  · intro h; simp [newQuantity, h, UnitWeight]
  · intro h; simp [newQuantity, h, UnitWeight]
  · intro h; simp [newQuantity, h, UnitVolume]
  · intro h; simp [newQuantity, h, UnitVolume]
  · intro h; simp [newQuantity, h, UnitVolume]
  · intro h; simp [newQuantity, h, UnitAmount]
  · intro h; simp [newQuantity, h, UnitAmount]
  · intro h; simp [newQuantity, h, UnitAmount]
  · intro h
    simp only [List.mem_cons, List.mem_singleton, List.not_mem_nil, or_false, not_or] at h
    obtain ⟨h1, h2, h3, h4, h5, h6, h7, h8, h9⟩ := h
    simp [newQuantity, h1, h2, h3, h4, h5, h6, h7, h8, h9]
  · intro q hq
    unfold newQuantity at hq
    simp only at hq
    split_ifs at hq <;>
      (injection hq with hq; subst hq; simp [UnitWeight, UnitVolume, UnitAmount])

/-- C5, at concrete inputs: 5000 "G" is 5 kg, 30 "dL" is 3 L, and "xyz" is refused. -/
theorem newQuantity_table_witness :
    newQuantity lowerAscii (5000 : Int) "G" = .ok { Unit := "kg", Value := 5 }
    ∧ newQuantity lowerAscii (30 : Int) "dL" = .ok { Unit := "L", Value := 3 }
    ∧ newQuantity lowerAscii (1 : Int) "xyz" = .error "unknown unit: 'xyz'" :=
  ⟨(newQuantity_table lowerAscii (5000 : Int) "G").2.1 (by decide),
   (newQuantity_table lowerAscii (30 : Int) "dL").2.2.2.2.2.1 (by decide),
   (newQuantity_table lowerAscii (1 : Int) "xyz").2.2.2.2.2.2.2.2.2.1 (by decide)⟩

/-! ## Rows -/

theorem product_ok_fields {F : Type} [Float64 F] (toLower : String → String) (row : sourceRow F)
    (p : Product F) (h : row.product toLower = .ok p) :
    p.ID = row.ImageGtin ∧ p.VendorID = some (Itoa row.SupplierId) := by
  unfold sourceRow.product at h
  split at h
  · exact absurd h (by simp)
  · injection h with h; subst h; simp [sourceRow.id]

theorem Read_cons {F : Type} [Float64 F] (toLower : String → String) (clock : Nat → Nat)
    (row : sourceRow F) (rest : List (sourceRow F)) :
    response.Read toLower clock (row :: rest)
      = rowSends toLower (clock 0) row ++ response.Read toLower (fun i => clock (i + 1)) rest := by
  unfold rowSends
  rw [response.Read]
  cases h : row.product toLower <;> simp

theorem Read_append {F : Type} [Float64 F] (toLower : String → String)
    (pre post : List (sourceRow F)) (clock : Nat → Nat) :
    response.Read toLower clock (pre ++ post)
      = response.Read toLower clock pre
        ++ response.Read toLower (fun i => clock (i + pre.length)) post := by
  induction pre generalizing clock with
  | nil => simp [response.Read]
  | cons row pre ih =>
    rw [List.cons_append, Read_cons, Read_cons, ih, List.append_assoc]
    congr 2

/-- The sends of `Read` for the rows from index `i` on, row by row. -/
theorem Read_eq_flatten {F : Type} [Float64 F] (toLower : String → String)
    (rows : List (sourceRow F)) (clock : Nat → Nat) :
    response.Read toLower clock rows
      = ((List.range rows.length).map fun i =>
          match rows[i]? with
          | some row => rowSends toLower (clock i) row
          | none => []).flatten := by
  induction rows generalizing clock with
  | nil => simp [response.Read]
  | cons row rest ih =>
    rw [Read_cons, ih, List.length_cons, List.range_succ_eq_map]
    simp [Function.comp_def]

/-- C3: `Read` sends, row after row in row order, what each row contributes by
itself: the product (ID = ImageGtin), then the price point (ProductID = ImageGtin),
then the vendor (ID = decimal SupplierId = the product's VendorID) when
`product()` succeeds, and one `rowError` carrying the row when it fails; a failing
row leaves the sends of the rows before and after it as they are. -/
theorem Read_row_by_row {F : Type} [Float64 F] (toLower : String → String)
    (clock : Nat → Nat) (rows : List (sourceRow F)) :
    response.Read toLower clock rows
      = ((List.range rows.length).map fun i =>
          match rows[i]? with
          | some row => rowSends toLower (clock i) row
          | none => []).flatten
    ∧ (∀ (now : Nat) (row : sourceRow F) (p : Product F), row.product toLower = .ok p →
        ∃ pp v, rowSends toLower now row = [Event.product p, Event.pricePoint pp, Event.vendor v]
          ∧ p.ID = row.ImageGtin ∧ pp.ProductID = row.ImageGtin
          ∧ v.ID = Itoa row.SupplierId ∧ p.VendorID = some v.ID)
    ∧ (∀ (now : Nat) (row : sourceRow F) (err : String), row.product toLower = .error err →
        rowSends toLower now row = [Event.error (.rowErr { row := row, err := err })])
    ∧ (∀ (pre post : List (sourceRow F)) (bad : sourceRow F) (err : String),
        bad.product toLower = .error err →
        response.Read toLower clock (pre ++ bad :: post)
          = response.Read toLower clock pre
            ++ Event.error (.rowErr { row := bad, err := err })
            :: response.Read toLower (fun i => clock (i + 1 + pre.length)) post) := by
  refine ⟨Read_eq_flatten toLower rows clock, ?_, ?_, ?_⟩
  · intro now row p h
    obtain ⟨h1, h2⟩ := product_ok_fields toLower row p h
    exact ⟨row.pricePoint now, { ID := Itoa row.SupplierId, Name := row.Vendor },
      by simp [rowSends, h], h1, rfl, rfl, h2⟩
  · intro now row err h
    simp [rowSends, h]
  · intro pre post bad err h
    rw [Read_append, Read_cons]
    simp [rowSends, h]

/-! ## Workers -/

theorem Read_no_done {F : Type} [Float64 F] (toLower : String → String)
    (rows : List (sourceRow F)) (clock : Nat → Nat) :
    ∀ e ∈ response.Read toLower clock rows, ∀ q : Int, e ≠ Event.done q := by
  induction rows generalizing clock with
  | nil => simp [response.Read]
  | cons row rest ih =>
    intro e he q
    rw [response.Read] at he
    split at he
    · simp only [List.mem_cons] at he
      rcases he with rfl | he
      · simp
      · exact ih _ e he q
    · simp only [List.mem_cons] at he
      rcases he with rfl | rfl | rfl | he
      · simp
      · simp
      · simp
      · exact ih _ e he q

theorem workerSends_split {F : Type} [Float64 F] (env : Env F) (m : menyRequest) (page : Int) :
    ∃ pre : List (Event F),
      workerSends env m page = pre ++ [Event.done page]
      ∧ (∀ e ∈ pre, ∀ q : Int, e ≠ Event.done q)
      ∧ (∀ err, env.call page m.pagesize = .error err →
          pre = [Event.error (.rowErr { row := sourceRow.zero, err := err })])
      ∧ (∀ rows, env.call page m.pagesize = .ok rows →
          pre = response.Read env.toLower (env.now page) rows) := by
  unfold workerSends
  cases h : env.call page m.pagesize with
  | error err =>
    refine ⟨_, rfl, ?_, ?_, ?_⟩
    · intro e he q; simp at he; subst he; simp
    · intro err' h'; injection h' with h'; subst h'; rfl
    · intro rows h'; exact absurd h' (by simp)
  | ok rows =>
    refine ⟨_, rfl, ?_, ?_, ?_⟩
    · exact Read_no_done env.toLower rows (env.now page)
    · intro err' h'; exact absurd h' (by simp)
    · intro rows' h'; injection h' with h'; subst h'; rfl

theorem filter_isDone_eq_nil {F : Type} (pre : List (Event F))
    (h : ∀ e ∈ pre, ∀ q : Int, e ≠ Event.done q) : pre.filter Event.isDone = [] := by
  rw [List.filter_eq_nil_iff]
  intro e he
  cases e with
  | done q => exact absurd rfl (h _ he q)
  | _ => simp [Event.isDone]

/-! ## The collector goroutine -/

theorem lastWith_eq_none_iff {A : Type} (q : A → Bool) (l : List A) :
    lastWith q l = none ↔ ∀ a ∈ l, q a = false := by
  induction l with
  | nil => simp [lastWith]
  | cons a rest ih =>
    rw [lastWith]
    cases h : lastWith q rest with
    | some b =>
      have := (not_congr ih).mp (by simp [h])
      simp only [List.mem_cons, forall_eq_or_imp]
      constructor
      · intro h'; exact absurd h' (by simp)
      · intro h'; exact absurd h'.2 this
    | none =>
      have := ih.mp h
      cases hq : q a
      · simpa [hq] using this
      · simp [hq]

theorem lastWith_eq_some_iff {A : Type} (q : A → Bool) (l : List A) (b : A) :
    lastWith q l = some b ↔
      ∃ pre post, l = pre ++ b :: post ∧ q b = true ∧ ∀ a ∈ post, q a = false := by
  induction l generalizing b with
  | nil => simp [lastWith]
  | cons a rest ih =>
    rw [lastWith]
    cases h : lastWith q rest with
    | some b' =>
      obtain ⟨pre, post, h1, h2, h3⟩ := (ih b').mp h
      constructor
      · intro hb
        injection hb with hb; subst hb
        exact ⟨a :: pre, post, by simp [h1], h2, h3⟩
      · rintro ⟨pre', post', e1, e2, e3⟩
        cases pre' with
        | nil =>
          simp only [List.nil_append, List.cons.injEq] at e1
          obtain ⟨rfl, rfl⟩ := e1
          have := e3 b' (by rw [h1]; simp)
          simp [h2] at this
        | cons x pre' =>
          simp only [List.cons_append, List.cons.injEq] at e1
          obtain ⟨rfl, e1⟩ := e1
          have := (ih b).mpr ⟨pre', post', e1, e2, e3⟩
          rw [h] at this; exact this
    | none =>
      have hn := (lastWith_eq_none_iff q rest).mp h
      constructor
      · intro hb
        by_cases hq : q a = true
        · simp only [hq, if_true, Option.some.injEq] at hb
          subst hb
          exact ⟨[], rest, rfl, hq, hn⟩
        · simp [hq] at hb
      · rintro ⟨pre', post', e1, e2, e3⟩
        cases pre' with
        | nil =>
          simp only [List.nil_append, List.cons.injEq] at e1
          obtain ⟨rfl, rfl⟩ := e1
          simp [e2]
        | cons x pre' =>
          simp only [List.cons_append, List.cons.injEq] at e1
          obtain ⟨rfl, e1⟩ := e1
          have := hn b (by simp [e1])
          simp [e2] at this

/-- Assigning a list of keyed values in order: the lookup finds the last value
assigned under the key, or what the map held before. -/
theorem get?_foldl_set {V : Type} (key : V → String) (vs : List V) (m : GoMap String V)
    (k : String) :
    (vs.foldl (fun acc v => GoMap.set acc (key v) v) m).get? k
      = match lastWith (fun v => decide (key v = k)) vs with
        | some v => some v
        | none => m.get? k := by
  induction vs generalizing m with
  | nil => simp [lastWith]
  | cons v rest ih =>
    rw [List.foldl_cons, ih, lastWith]
    cases h : lastWith (fun v => decide (key v = k)) rest with
    | some b => rfl
    | none =>
      by_cases hk : key v = k
      · subst hk; simp [GoMap.get?_set_self]
      · simp [hk, GoMap.get?_set_ne _ _ hk]

theorem collectorLoop_eq_foldl {F : Type} (st : Collector F) (evs : List (Event F)) :
    (collectorLoop st evs).1 = (processed st evs).foldl Collector.receive st := by
  induction evs generalizing st with
  | nil => simp [collectorLoop, processed]
  | cons e rest ih =>
    rw [collectorLoop, processed]
    by_cases h : (st.receive e).remaining.len = 0
    · simp [h]
    · simp [h, ih]

theorem foldl_receive_productResult {F : Type} (evs : List (Event F)) (st : Collector F) :
    (evs.foldl Collector.receive st).productResult
      = (productsOf evs).foldl (fun acc p => GoMap.set acc p.ID p) st.productResult := by
  induction evs generalizing st with
  | nil => simp [productsOf]
  | cons e rest ih =>
    rw [List.foldl_cons, ih]
    cases e with
    | error err => cases err <;> simp [productsOf, Collector.receive]
    | _ => simp [productsOf, Collector.receive]

theorem foldl_receive_pricePointResult {F : Type} (evs : List (Event F)) (st : Collector F) :
    (evs.foldl Collector.receive st).pricePointResult
      = (pricePointsOf evs).foldl (fun acc pp => GoMap.set acc pp.ProductID pp)
          st.pricePointResult := by
  induction evs generalizing st with
  | nil => simp [pricePointsOf]
  | cons e rest ih =>
    rw [List.foldl_cons, ih]
    cases e with
    | error err => cases err <;> simp [pricePointsOf, Collector.receive]
    | _ => simp [pricePointsOf, Collector.receive]

theorem foldl_receive_vendorResult {F : Type} (evs : List (Event F)) (st : Collector F) :
    (evs.foldl Collector.receive st).vendorResult
      = (vendorsOf evs).foldl (fun acc v => GoMap.set acc v.ID v) st.vendorResult := by
  induction evs generalizing st with
  | nil => simp [vendorsOf]
  | cons e rest ih =>
    rw [List.foldl_cons, ih]
    cases e with
    | error err => cases err <;> simp [vendorsOf, Collector.receive]
    | _ => simp [vendorsOf, Collector.receive]

/-- From an empty map: the lookup at `k` after the assignments is `some v` exactly
when `v` is the last value with key `k`. -/
theorem get?_foldl_set_nil {V : Type} (key : V → String) (vs : List V) (k : String) (v : V) :
    (vs.foldl (fun acc v => GoMap.set acc (key v) v) ([] : GoMap String V)).get? k = some v
      ↔ ∃ pre post, vs = pre ++ v :: post ∧ key v = k ∧ ∀ a ∈ post, key a ≠ k := by
  rw [get?_foldl_set]
  have h := lastWith_eq_some_iff (fun v => decide (key v = k)) vs v
  simp only [decide_eq_true_eq, decide_eq_false_iff_not] at h
  rw [← h]
  cases lastWith (fun v => decide (key v = k)) vs <;> simp [GoMap.get?]

theorem get?_foldl_set_nil_none {V : Type} (key : V → String) (vs : List V) (k : String) :
    (vs.foldl (fun acc v => GoMap.set acc (key v) v) ([] : GoMap String V)).get? k = none
      ↔ ∀ a ∈ vs, key a ≠ k := by
  rw [get?_foldl_set]
  have h := lastWith_eq_none_iff (fun v => decide (key v = k)) vs
  simp only [decide_eq_false_iff_not] at h
  rw [← h]
  cases lastWith (fun v => decide (key v = k)) vs <;> simp [GoMap.get?]

/-- C1: after the collector loop has run on a sequence of events, each of the three
maps holds at a key `k` the last-arriving entity with that key among the events the
loop received (products by ID, price points by ProductID, vendors by ID), and no
entry exactly when none arrived; error and page-done events leave the maps as they are. -/
theorem collector_last_arrival_wins {F : Type} (pages : List Int) (evs : List (Event F))
    (k : String) :
    (∀ p, (collectorLoop (newCollector pages) evs).1.productResult.get? k = some p ↔
        ∃ pre post, productsOf (processed (newCollector pages) evs) = pre ++ p :: post
          ∧ p.ID = k ∧ ∀ a ∈ post, a.ID ≠ k)
    ∧ ((collectorLoop (newCollector pages) evs).1.productResult.get? k = none ↔
        ∀ a ∈ productsOf (processed (newCollector pages) evs), a.ID ≠ k)
    ∧ (∀ pp, (collectorLoop (newCollector pages) evs).1.pricePointResult.get? k = some pp ↔
        ∃ pre post, pricePointsOf (processed (newCollector pages) evs) = pre ++ pp :: post
          ∧ pp.ProductID = k ∧ ∀ a ∈ post, a.ProductID ≠ k)
    ∧ ((collectorLoop (newCollector pages) evs).1.pricePointResult.get? k = none ↔
        ∀ a ∈ pricePointsOf (processed (newCollector pages) evs), a.ProductID ≠ k)
    ∧ (∀ v, (collectorLoop (newCollector pages) evs).1.vendorResult.get? k = some v ↔
        ∃ pre post, vendorsOf (processed (newCollector pages) evs) = pre ++ v :: post
          ∧ v.ID = k ∧ ∀ a ∈ post, a.ID ≠ k)
    ∧ ((collectorLoop (newCollector pages) evs).1.vendorResult.get? k = none ↔
        ∀ a ∈ vendorsOf (processed (newCollector pages) evs), a.ID ≠ k)
    ∧ (∀ (st : Collector F) (err : GoError F),
        (st.receive (Event.error err)).productResult = st.productResult
        ∧ (st.receive (Event.error err)).pricePointResult = st.pricePointResult
        ∧ (st.receive (Event.error err)).vendorResult = st.vendorResult)
    ∧ (∀ (st : Collector F) (page : Int),
        (st.receive (Event.done page)).productResult = st.productResult
        ∧ (st.receive (Event.done page)).pricePointResult = st.pricePointResult
        ∧ (st.receive (Event.done page)).vendorResult = st.vendorResult) := by
  rw [collectorLoop_eq_foldl, foldl_receive_productResult, foldl_receive_pricePointResult,
    foldl_receive_vendorResult]
  refine ⟨?_, ?_, ?_, ?_, ?_, ?_, ?_, ?_⟩
  · intro p; exact get?_foldl_set_nil (fun p : Product F => p.ID) _ k p
  · exact get?_foldl_set_nil_none (fun p : Product F => p.ID) _ k
  · intro pp; exact get?_foldl_set_nil (fun pp : PricePoint F => pp.ProductID) _ k pp
  · exact get?_foldl_set_nil_none (fun pp : PricePoint F => pp.ProductID) _ k
  · intro v; exact get?_foldl_set_nil (fun v : Vendor => v.ID) _ k v
  · exact get?_foldl_set_nil_none (fun v : Vendor => v.ID) _ k
  · intro st err; cases err <;> simp [Collector.receive]
  · intro st page; simp [Collector.receive]

/-! ## The collector goroutine: what it logs -/

theorem repeats_congr (l : List String) (s1 s2 : List String) (h : ∀ x, x ∈ s1 ↔ x ∈ s2) :
    repeats s1 l = repeats s2 l := by
  induction l generalizing s1 s2 with
  | nil => simp [repeats]
  | cons k rest ih =>
    rw [repeats, repeats, ih (k :: s1) (k :: s2) (by intro x; simp [h x])]
    simp [h k]

theorem length_filter_isWarn {F : Type} (l : List (LogEntry F)) :
    (l.filter LogEntry.isWarn).length
      = (l.filter LogEntry.isWarnProduct).length + (l.filter LogEntry.isWarnPricePoint).length := by
  induction l with
  | nil => simp
  | cons a rest ih =>
    cases a <;>
      simp [List.filter_cons, LogEntry.isWarn, LogEntry.isWarnProduct,
        LogEntry.isWarnPricePoint, ih] <;> omega

theorem foldl_receive_warnProduct {F : Type} (evs : List (Event F)) (st : Collector F) :
    ((evs.foldl Collector.receive st).log.filter LogEntry.isWarnProduct).length
      = (st.log.filter LogEntry.isWarnProduct).length
        + repeats st.productResult.keys ((productsOf evs).map fun p => p.ID) := by
  induction evs generalizing st with
  | nil => simp [productsOf, repeats]
  | cons e rest ih =>
    rw [List.foldl_cons, ih]
    cases e with
    | product p =>
      have hc := GoMap.contains_iff st.productResult p.ID
      have hr := repeats_congr ((productsOf rest).map fun p => p.ID)
        (GoMap.keys (GoMap.set st.productResult p.ID p)) (p.ID :: st.productResult.keys)
        (by intro x; simp [GoMap.mem_keys_set])
      simp only [Collector.receive, productsOf, List.map_cons, repeats, hr]
      by_cases h : p.ID ∈ st.productResult.keys
      · simp [h, hc.mpr h, LogEntry.isWarnProduct]; omega
      · have : st.productResult.contains p.ID = false := by
          rw [GoMap.contains_eq_false_iff]; exact h
        simp [h, this]
    | pricePoint pp =>
      simp only [Collector.receive, productsOf]
      split <;> simp [LogEntry.isWarnProduct]
    | vendor v => simp [Collector.receive, productsOf]
    | error err => cases err <;> simp [Collector.receive, productsOf, LogEntry.isWarnProduct]
    | done q => simp [Collector.receive, productsOf]

theorem foldl_receive_warnPricePoint {F : Type} (evs : List (Event F)) (st : Collector F) :
    ((evs.foldl Collector.receive st).log.filter LogEntry.isWarnPricePoint).length
      = (st.log.filter LogEntry.isWarnPricePoint).length
        + repeats st.pricePointResult.keys ((pricePointsOf evs).map fun pp => pp.ProductID) := by
  induction evs generalizing st with
  | nil => simp [pricePointsOf, repeats]
  | cons e rest ih =>
    rw [List.foldl_cons, ih]
    cases e with
    | pricePoint p =>
      have hc := GoMap.contains_iff st.pricePointResult p.ProductID
      have hr := repeats_congr ((pricePointsOf rest).map fun p => p.ProductID)
        (GoMap.keys (GoMap.set st.pricePointResult p.ProductID p))
        (p.ProductID :: st.pricePointResult.keys)
        (by intro x; simp [GoMap.mem_keys_set])
      simp only [Collector.receive, pricePointsOf, List.map_cons, repeats, hr]
      by_cases h : p.ProductID ∈ st.pricePointResult.keys
      · simp [h, hc.mpr h, LogEntry.isWarnPricePoint]; omega
      · have : st.pricePointResult.contains p.ProductID = false := by
          rw [GoMap.contains_eq_false_iff]; exact h
        simp [h, this]
    | product pp =>
      simp only [Collector.receive, pricePointsOf]
      split <;> simp [LogEntry.isWarnPricePoint]
    | vendor v => simp [Collector.receive, pricePointsOf]
    | error err => cases err <;> simp [Collector.receive, pricePointsOf, LogEntry.isWarnPricePoint]
    | done q => simp [Collector.receive, pricePointsOf]

/-- C6: the collector logs a duplicate warning on a product arrival exactly when the
ID is already in the product map, on a price-point arrival exactly when the
ProductID is already in the price-point map, and on no other event (a vendor or a
page-done logs nothing, an error logs the error); over a run of the loop the
warnings number the product arrivals whose ID arrived before plus the price-point
arrivals whose ProductID arrived before. -/
theorem collector_duplicate_warnings {F : Type} (pages : List Int) (evs : List (Event F)) :
    (∀ (st : Collector F) (p : Product F), (st.receive (Event.product p)).log
        = if st.productResult.contains p.ID then st.log ++ [LogEntry.warnProduct p.ID p.Name]
          else st.log)
    ∧ (∀ (st : Collector F) (pp : PricePoint F), (st.receive (Event.pricePoint pp)).log
        = if st.pricePointResult.contains pp.ProductID
          then st.log ++ [LogEntry.warnPricePoint pp.ProductID] else st.log)
    ∧ (∀ (st : Collector F) (v : Vendor), (st.receive (Event.vendor v)).log = st.log)
    ∧ (∀ (st : Collector F) (err : GoError F),
        (st.receive (Event.error err)).log = st.log ++ [LogEntry.error err])
    ∧ (∀ (st : Collector F) (page : Int), (st.receive (Event.done page)).log = st.log)
    ∧ (((collectorLoop (newCollector pages) evs).1.log.filter LogEntry.isWarnProduct).length
        = repeats [] ((productsOf (processed (newCollector pages) evs)).map fun p => p.ID))
    ∧ (((collectorLoop (newCollector pages) evs).1.log.filter LogEntry.isWarnPricePoint).length
        = repeats []
            ((pricePointsOf (processed (newCollector pages) evs)).map fun pp => pp.ProductID))
    ∧ (((collectorLoop (newCollector pages) evs).1.log.filter LogEntry.isWarn).length
        = repeats [] ((productsOf (processed (newCollector pages) evs)).map fun p => p.ID)
          + repeats []
              ((pricePointsOf (processed (newCollector pages) evs)).map fun pp => pp.ProductID)) := by
  have h1 := foldl_receive_warnProduct (processed (newCollector pages) evs)
    (newCollector pages : Collector F)
  have h2 := foldl_receive_warnPricePoint (processed (newCollector pages) evs)
    (newCollector pages : Collector F)
  rw [← collectorLoop_eq_foldl] at h1 h2
  have e1 : ((newCollector pages : Collector F).log.filter LogEntry.isWarnProduct).length = 0 := by
    simp [newCollector, LogEntry.isWarnProduct]
  have e2 : ((newCollector pages : Collector F).log.filter LogEntry.isWarnPricePoint).length
      = 0 := by
    simp [newCollector, LogEntry.isWarnPricePoint]
  have k1 : (newCollector pages : Collector F).productResult.keys = [] := rfl
  have k2 : (newCollector pages : Collector F).pricePointResult.keys = [] := rfl
  rw [e1, k1, Nat.zero_add] at h1
  rw [e2, k2, Nat.zero_add] at h2
  refine ⟨?_, ?_, ?_, ?_, ?_, h1, h2, ?_⟩
  · intro st p; simp only [Collector.receive]
  · intro st pp; simp only [Collector.receive]
  · intro st v; simp [Collector.receive]
  · intro st err; cases err <;> simp [Collector.receive]
  · intro st page; simp [Collector.receive]
  · rw [length_filter_isWarn, h1, h2]

/-! ## Lists of workers -/

theorem countP_set_of_getElem? {A : Type} (p : A → Bool) (ws : List A) (i : Nat) (w w' : A)
    (h : ws[i]? = some w) :
    (ws.set i w').countP p + (if p w then 1 else 0)
      = ws.countP p + (if p w' then 1 else 0) := by
  induction ws generalizing i with
  | nil => simp at h
  | cons a rest ih =>
    cases i with
    | zero =>
      simp only [List.getElem?_cons_zero, Option.some.injEq] at h
      subst h
      simp only [List.set_cons_zero, List.countP_cons]
      omega
    | succ j =>
      simp only [List.getElem?_cons_succ] at h
      have := ih j h
      simp only [List.set_cons_succ, List.countP_cons]
      omega

theorem sum_map_set_of_getElem? {A : Type} (f : A → Nat) (ws : List A) (i : Nat) (w w' : A)
    (h : ws[i]? = some w) :
    ((ws.set i w').map f).sum + f w = (ws.map f).sum + f w' := by
  induction ws generalizing i with
  | nil => simp at h
  | cons a rest ih =>
    cases i with
    | zero =>
      simp only [List.getElem?_cons_zero, Option.some.injEq] at h
      subst h
      simp only [List.set_cons_zero, List.map_cons, List.sum_cons]
      omega
    | succ j =>
      simp only [List.getElem?_cons_succ] at h
      have := ih j h
      simp only [List.set_cons_succ, List.map_cons, List.sum_cons]
      omega

theorem getElem?_set_eq_some {A : Type} (ws : List A) (i j : Nat) (w w' x : A)
    (h : ws[i]? = some w) :
    (ws.set i w')[j]? = some x ↔ (j = i ∧ x = w') ∨ (j ≠ i ∧ ws[j]? = some x) := by
  have hi : i < ws.length := (List.getElem?_eq_some.mp h).1
  rw [List.getElem?_set]
  by_cases hij : i = j
  · subst hij
    simp only [hi, if_true, Option.some.injEq]
    constructor
    · intro e; exact Or.inl ⟨trivial, e.symm⟩
    · rintro (⟨_, e⟩ | ⟨e, _⟩)
      · exact e.symm
      · exact absurd rfl e
  · have hji : ¬ j = i := fun e => hij e.symm
    simp [hij, hji]

theorem getElem?_concat_eq_some {A : Type} (ws : List A) (j : Nat) (w x : A) :
    (ws ++ [w])[j]? = some x ↔ ws[j]? = some x ∨ (j = ws.length ∧ x = w) := by
  rw [List.getElem?_append]
  by_cases hj : j < ws.length
  · simp only [hj, if_true]
    constructor
    · intro e; exact Or.inl e
    · rintro (e | ⟨e, _⟩)
      · exact e
      · omega
  · simp only [hj, if_false]
    have hn : ws[j]? = none := List.getElem?_eq_none (by omega)
    by_cases hj' : j = ws.length
    · subst hj'
      simp only [Nat.sub_self, List.getElem?_cons_zero, Option.some.injEq, hn]
      constructor
      · intro e; exact Or.inr ⟨trivial, e.symm⟩
      · rintro (e | ⟨_, e⟩)
        · exact absurd e (by simp)
        · exact e.symm
    · have : j - ws.length = (j - ws.length - 1) + 1 := by omega
      rw [this]
      simp [hn, hj']

theorem map_set_same {A B : Type} (f : A → B) (ws : List A) (i : Nat) (w w' : A)
    (h : ws[i]? = some w) (hf : f w' = f w) : (ws.set i w').map f = ws.map f := by
  induction ws generalizing i with
  | nil => simp
  | cons a rest ih =>
    cases i with
    | zero =>
      simp only [List.getElem?_cons_zero, Option.some.injEq] at h
      subst h
      simp [hf]
    | succ j =>
      simp only [List.getElem?_cons_succ] at h
      simp [ih j h]

/-! ## The sends of a worker -/

theorem workerSends_length_pos {F : Type} [Float64 F] (env : Env F) (m : menyRequest)
    (page : Int) : 0 < (workerSends env m page).length := by
  simp [workerSends]

theorem workerSends_getElem?_done {F : Type} [Float64 F] (env : Env F) (m : menyRequest)
    (page : Int) (n : Nat) (q : Int)
    (h : (workerSends env m page)[n]? = some (Event.done q)) :
    n + 1 = (workerSends env m page).length ∧ q = page := by
  obtain ⟨pre, h1, h2, -, -⟩ := workerSends_split env m page
  rw [h1] at h ⊢
  rw [List.getElem?_append] at h
  by_cases hn : n < pre.length
  · simp only [hn, if_true] at h
    have hm : Event.done q ∈ pre := List.mem_iff_getElem?.mpr ⟨n, h⟩
    exact absurd rfl (h2 _ hm q)
  · simp only [hn, if_false] at h
    by_cases hn' : n = pre.length
    · subst hn'
      simp only [Nat.sub_self, List.getElem?_cons_zero, Option.some.injEq, Event.done.injEq] at h
      simp [h]
    · have : n - pre.length = (n - pre.length - 1) + 1 := by omega
      rw [this] at h
      simp at h

theorem workerSends_getElem?_last {F : Type} [Float64 F] (env : Env F) (m : menyRequest)
    (page : Int) (n : Nat) (e : Event F)
    (h : (workerSends env m page)[n]? = some e) (hn : n + 1 = (workerSends env m page).length) :
    e = Event.done page := by
  obtain ⟨pre, h1, -, -, -⟩ := workerSends_split env m page
  rw [h1] at h hn
  simp only [List.length_append, List.length_singleton, add_left_inj] at hn
  subst hn
  simpa using h.symm

/-! ## The steps of `Execute`, one by one -/

section Steps

variable {F : Type} [Float64 F] (env : Env F) (m : menyRequest)

theorem step_acquire {s s' : State F} (h : step env m s Action.acquire = some s') :
    ∃ page rest, s.holding = none ∧ s.todo = page :: rest ∧ 0 < s.rateLimit
      ∧ s' = { s with rateLimit := s.rateLimit - 1, holding := some page, todo := rest } := by
  simp only [step] at h
  split at h
  · rename_i page rest h1 h2
    split at h
    · rename_i h3
      injection h with h
      exact ⟨page, rest, h1, h2, h3, h.symm⟩
    · exact absurd h (by simp)
  · exact absurd h (by simp)

theorem step_enqueue {s s' : State F} (h : step env m s Action.enqueue = some s') :
    ∃ page, s.holding = some page ∧ s.c.length < m.parallel
      ∧ s' = { s with c := s.c ++ [page], holding := none } := by
  simp only [step] at h
  split at h
  · rename_i page h1
    split at h
    · rename_i h3
      injection h with h
      exact ⟨page, h1, h3, h.symm⟩
    · exact absurd h (by simp)
  · exact absurd h (by simp)

theorem step_close {s s' : State F} (h : step env m s Action.close = some s') :
    s.holding = none ∧ s.todo = [] ∧ s.closed = false ∧ s' = { s with closed := true } := by
  simp only [step] at h
  split at h
  · rename_i h1
    injection h with h
    exact ⟨h1.1, h1.2.1, h1.2.2, h.symm⟩
  · exact absurd h (by simp)

theorem step_spawn {s s' : State F} (h : step env m s Action.spawn = some s') :
    ∃ page rest, s.main = MainPc.ranging ∧ s.c = page :: rest
      ∧ s' = { s with c := rest, wg := s.wg + 1,
                      workers := s.workers ++ [{ page := page, pc := 0, finished := false }] } := by
  simp only [step] at h
  split at h
  · rename_i page rest h1 h2
    injection h with h
    exact ⟨page, rest, h1, h2, h.symm⟩
  · exact absurd h (by simp)

theorem step_endRange {s s' : State F} (h : step env m s Action.endRange = some s') :
    s.main = MainPc.ranging ∧ s.c = [] ∧ s.closed = true
      ∧ s' = { s with main := MainPc.waiting } := by
  simp only [step] at h
  split at h
  · rename_i h1
    injection h with h
    exact ⟨h1.1, h1.2.1, h1.2.2, h.symm⟩
  · exact absurd h (by simp)

theorem step_wait {s s' : State F} (h : step env m s Action.wait = some s') :
    s.main = MainPc.waiting ∧ s.wg = 0 ∧ s' = { s with main := MainPc.returned } := by
  simp only [step] at h
  split at h
  · rename_i h1
    injection h with h
    exact ⟨h1.1, h1.2, h.symm⟩
  · exact absurd h (by simp)

theorem step_release {s s' : State F} {i : Nat} (h : step env m s (Action.release i) = some s') :
    ∃ w, s.workers[i]? = some w ∧ w.finished = false
      ∧ w.pc = (workerSends env m w.page).length ∧ s.rateLimit < m.parallel
      ∧ s' = { s with rateLimit := s.rateLimit + 1, wg := s.wg - 1,
                      workers := s.workers.set i { w with finished := true } } := by
  simp only [step] at h
  split at h
  · rename_i w h1
    split at h
    · rename_i h2
      injection h with h
      exact ⟨w, h1, h2.1, h2.2.1, h2.2.2, h.symm⟩
    · exact absurd h (by simp)
  · exact absurd h (by simp)

theorem step_deliver {s s' : State F} {i : Nat} (h : step env m s (Action.deliver i) = some s') :
    ∃ w e, s.workers[i]? = some w ∧ (workerSends env m w.page)[w.pc]? = some e
      ∧ s.collecting = true
      ∧ (((s.collector.receive e).remaining.len = 0
          ∧ s' = { s with collector := s.collector.receive e, collecting := false,
                          wg := s.wg - 1,
                          workers := s.workers.set i { w with pc := w.pc + 1 } })
        ∨ ((s.collector.receive e).remaining.len ≠ 0
          ∧ s' = { s with collector := s.collector.receive e,
                          workers := s.workers.set i { w with pc := w.pc + 1 } })) := by
  simp only [step] at h
  split at h
  · rename_i w h1
    split at h
    · rename_i e h2
      split at h
      · rename_i h3
        split at h
        · rename_i h4
          injection h with h
          exact ⟨w, e, h1, h2, h3, Or.inl ⟨h4, h.symm⟩⟩
        · rename_i h4
          injection h with h
          exact ⟨w, e, h1, h2, h3, Or.inr ⟨h4, h.symm⟩⟩
      · exact absurd h (by simp)
    · exact absurd h (by simp)
  · exact absurd h (by simp)

end Steps

/-! ## The invariant of `Execute` -/

theorem prefill_eq (cap n len : Nat) (h : len + n ≤ cap) : prefill cap n len = some (len + n) := by
  induction n generalizing len with
  | zero => simp [prefill]
  | succ n ih =>
    have h1 : len < cap := by omega
    rw [prefill, if_pos h1, ih (len + 1) (by omega)]
    congr 1; omega

theorem mem_keys_foldl_set (ps : List Int) (r : GoMap Int Unit) (k : Int) :
    k ∈ (ps.foldl (fun r page => GoMap.set r page ()) r).keys ↔ k ∈ ps ∨ k ∈ r.keys := by
  induction ps generalizing r with
  | nil => simp
  | cons p rest ih =>
    rw [List.foldl_cons, ih, GoMap.mem_keys_set]
    simp only [List.mem_cons]
    tauto

theorem productsOf_append {F : Type} (l1 l2 : List (Event F)) :
    productsOf (l1 ++ l2) = productsOf l1 ++ productsOf l2 := by
  induction l1 with
  | nil => simp [productsOf]
  | cons e rest ih => cases e <;> simp [productsOf, ih]

theorem receive_remaining_of_not_done {F : Type} (st : Collector F) (e : Event F)
    (h : ∀ q : Int, e ≠ Event.done q) : (st.receive e).remaining = st.remaining := by
  cases e with
  | done q => exact absurd rfl (h q)
  | error err => cases err <;> rfl
  | _ => rfl

theorem mem_keys_receive {F : Type} (st : Collector F) (e : Event F) (k : String) :
    k ∈ (st.receive e).productResult.keys ↔
      k ∈ st.productResult.keys ∨ k ∈ (productsOf [e]).map fun p => p.ID := by
  cases e with
  | product p => simp [Collector.receive, productsOf, GoMap.mem_keys_set]; tauto
  | error err => cases err <;> simp [Collector.receive, productsOf]
  | _ => simp [Collector.receive, productsOf]

theorem nodup_keys_receive {F : Type} (st : Collector F) (e : Event F)
    (h : st.productResult.keys.Nodup) : (st.receive e).productResult.keys.Nodup := by
  cases e with
  | product p => exact GoMap.nodup_keys_set _ _ _ h
  | error err => cases err <;> exact h
  | _ => exact h

theorem init_eq {F : Type} (m : menyRequest) :
    (init m : Option (State F))
      = some { collector := newCollector m.pages, collecting := true, todo := m.pages,
               holding := none, c := [], closed := false, rateLimit := m.parallel, workers := [],
               wg := 1, main := MainPc.ranging } := by
  simp [init, prefill_eq m.parallel m.parallel 0 (by omega)]

section Invariant

variable {F : Type} [Float64 F] (env : Env F) (m : menyRequest)

theorem sent_succ (w : Worker) (e : Event F)
    (h : (workerSends env m w.page)[w.pc]? = some e) :
    Worker.sent env m { w with pc := w.pc + 1 } = w.sent env m ++ [e] := by
  simp [Worker.sent, List.take_succ, h]

theorem init_inv (s : State F) (h : init m = some s) : Inv env m s := by
  rw [init_eq m] at h
  injection h with h
  subst h
  constructor
  · simp [inFlight, unfinished]
  · simp [unfinished]
  · simp
  · intro i w hw; simp at hw
  · intro h; simp at h
  · intro h; simp at h
  · intro h; simp at h
  · intro h; simp at h
  · intro hp hlen
    exfalso
    obtain ⟨p, rest, hp'⟩ := List.exists_cons_of_ne_nil hp
    have := (GoMap.len_eq_zero_iff _).mp hlen p
    apply this
    simp only [newCollector]
    rw [mem_keys_foldl_set]
    simp [hp']
  · intro p
    simp only [newCollector]
    rw [mem_keys_foldl_set]
    simp [GoMap.keys]
  · simp [newCollector, GoMap.keys]
  · intro k
    simp [newCollector, GoMap.keys]

theorem inv_acquire {s s' : State F} (hI : Inv env m s)
    (h : step env m s Action.acquire = some s') : Inv env m s' := by
  obtain ⟨page, rest, h1, h2, h3, rfl⟩ := step_acquire env m h
  have ht := hI.tokens
  have hp := hI.pages
  simp only [inFlight, unfinished, h1, h2] at ht hp
  constructor
  · simp only [inFlight, unfinished]; simp at ht ⊢; omega
  · exact hI.wg
  · simpa using hp
  · exact hI.pc
  · intro hc; have := (hI.closed hc).2; simp [h2] at this
  · exact hI.main
  · exact hI.returned
  · exact hI.exited
  · exact hI.collecting
  · exact hI.remaining
  · exact hI.nodup
  · exact hI.products

theorem inv_enqueue {s s' : State F} (hI : Inv env m s)
    (h : step env m s Action.enqueue = some s') : Inv env m s' := by
  obtain ⟨page, h1, h2, rfl⟩ := step_enqueue env m h
  have ht := hI.tokens
  have hp := hI.pages
  simp only [inFlight, unfinished, h1] at ht hp
  constructor
  · simp only [inFlight, unfinished]; simp at ht ⊢; omega
  · exact hI.wg
  · simpa using hp
  · exact hI.pc
  · intro hc; have := (hI.closed hc).1; simp [h1] at this
  · intro hm; have := (hI.main hm).2; have := (hI.closed this).1; simp [h1] at this
  · exact hI.returned
  · exact hI.exited
  · exact hI.collecting
  · exact hI.remaining
  · exact hI.nodup
  · exact hI.products

theorem inv_close {s s' : State F} (hI : Inv env m s)
    (h : step env m s Action.close = some s') : Inv env m s' := by
  obtain ⟨h1, h2, h3, rfl⟩ := step_close env m h
  constructor
  · exact hI.tokens
  · exact hI.wg
  · exact hI.pages
  · exact hI.pc
  · intro _; exact ⟨h1, h2⟩
  · intro hm; exact ⟨(hI.main hm).1, rfl⟩
  · exact hI.returned
  · exact hI.exited
  · exact hI.collecting
  · exact hI.remaining
  · exact hI.nodup
  · exact hI.products

theorem inv_endRange {s s' : State F} (hI : Inv env m s)
    (h : step env m s Action.endRange = some s') : Inv env m s' := by
  obtain ⟨h1, h2, h3, rfl⟩ := step_endRange env m h
  constructor
  · exact hI.tokens
  · exact hI.wg
  · exact hI.pages
  · exact hI.pc
  · exact hI.closed
  · intro _; exact ⟨h2, h3⟩
  · intro hm; simp at hm
  · exact hI.exited
  · exact hI.collecting
  · exact hI.remaining
  · exact hI.nodup
  · exact hI.products

theorem inv_wait {s s' : State F} (hI : Inv env m s)
    (h : step env m s Action.wait = some s') : Inv env m s' := by
  obtain ⟨h1, h2, rfl⟩ := step_wait env m h
  constructor
  · exact hI.tokens
  · exact hI.wg
  · exact hI.pages
  · exact hI.pc
  · exact hI.closed
  · intro _; exact hI.main (by simp [h1])
  · intro _; exact h2
  · exact hI.exited
  · exact hI.collecting
  · exact hI.remaining
  · exact hI.nodup
  · exact hI.products

theorem inv_spawn {s s' : State F} (hI : Inv env m s)
    (h : step env m s Action.spawn = some s') : Inv env m s' := by
  obtain ⟨page, rest, h1, h2, rfl⟩ := step_spawn env m h
  have ht := hI.tokens
  have hw := hI.wg
  have hp := hI.pages
  simp only [inFlight, unfinished, h2] at ht hw hp
  constructor
  · simp only [inFlight, unfinished, List.countP_append]; simp at ht ⊢; omega
  · simp only [unfinished, List.countP_append]; simp at hw ⊢; omega
  · simpa using hp
  · intro i w hw'
    rcases (getElem?_concat_eq_some _ _ _ _).mp hw' with h' | ⟨-, rfl⟩
    · exact hI.pc i w h'
    · simp
  · exact hI.closed
  · intro hm; exact absurd h1 hm
  · intro hm; simp [h1] at hm
  · exact hI.exited
  · exact hI.collecting
  · intro p
    rw [hI.remaining p]
    constructor
    · rintro ⟨hp1, hp2⟩
      refine ⟨hp1, fun i w hw' hwp => ?_⟩
      rcases (getElem?_concat_eq_some _ _ _ _).mp hw' with h' | ⟨-, rfl⟩
      · exact hp2 i w h' hwp
      · exact workerSends_length_pos env m p
    · rintro ⟨hp1, hp2⟩
      exact ⟨hp1, fun i w hw' hwp =>
        hp2 i w ((getElem?_concat_eq_some _ _ _ _).mpr (Or.inl hw')) hwp⟩
  · exact hI.nodup
  · intro k
    rw [hI.products k]
    constructor
    · rintro ⟨i, w, hw', hk⟩
      exact ⟨i, w, (getElem?_concat_eq_some _ _ _ _).mpr (Or.inl hw'), hk⟩
    · rintro ⟨i, w, hw', hk⟩
      rcases (getElem?_concat_eq_some _ _ _ _).mp hw' with h' | ⟨-, rfl⟩
      · exact ⟨i, w, h', hk⟩
      · simp [Worker.sent, productsOf] at hk

theorem inv_release {s s' : State F} {i : Nat} (hI : Inv env m s)
    (h : step env m s (Action.release i) = some s') : Inv env m s' := by
  obtain ⟨w, h1, h2, h3, h4, rfl⟩ := step_release env m h
  have ht := hI.tokens
  have hw := hI.wg
  have hc := countP_set_of_getElem? (fun w : Worker => !w.finished) s.workers i w
    { w with finished := true } h1
  simp only [h2] at hc
  simp only [inFlight, unfinished] at ht hw
  constructor
  · simp only [inFlight, unfinished]; simp at hc ht ⊢; omega
  · simp only [unfinished]; simp at hc hw ⊢; omega
  · have hm := map_set_same (fun w : Worker => w.page) s.workers i w
      { w with finished := true } h1 rfl
    simp only [hm]; exact hI.pages
  · intro j x hx
    rcases (getElem?_set_eq_some _ _ _ _ _ _ h1).mp hx with ⟨-, rfl⟩ | ⟨-, h'⟩
    · simp [h3]
    · exact hI.pc j x h'
  · exact hI.closed
  · exact hI.main
  · intro hm
    have := hI.returned hm
    simp only at this ⊢
    omega
  · exact hI.exited
  · exact hI.collecting
  · intro p
    rw [hI.remaining p]
    constructor
    · rintro ⟨hp1, hp2⟩
      refine ⟨hp1, fun j x hx hxp => ?_⟩
      rcases (getElem?_set_eq_some _ _ _ _ _ _ h1).mp hx with ⟨rfl, rfl⟩ | ⟨-, h'⟩
      · exact hp2 j w h1 hxp
      · exact hp2 j x h' hxp
    · rintro ⟨hp1, hp2⟩
      refine ⟨hp1, fun j x hx hxp => ?_⟩
      by_cases hji : j = i
      · subst hji
        obtain rfl : w = x := by rw [h1] at hx; exact Option.some.inj hx
        exact hp2 j { w with finished := true }
          ((getElem?_set_eq_some _ _ _ _ _ _ h1).mpr (Or.inl ⟨rfl, rfl⟩)) hxp
      · exact hp2 j x ((getElem?_set_eq_some _ _ _ _ _ _ h1).mpr (Or.inr ⟨hji, hx⟩)) hxp
  · exact hI.nodup
  · intro k
    rw [hI.products k]
    constructor
    · rintro ⟨j, x, hx, hk⟩
      by_cases hji : j = i
      · subst hji
        obtain rfl : w = x := by rw [h1] at hx; exact Option.some.inj hx
        exact ⟨j, { w with finished := true },
          (getElem?_set_eq_some _ _ _ _ _ _ h1).mpr (Or.inl ⟨rfl, rfl⟩), hk⟩
      · exact ⟨j, x, (getElem?_set_eq_some _ _ _ _ _ _ h1).mpr (Or.inr ⟨hji, hx⟩), hk⟩
    · rintro ⟨j, x, hx, hk⟩
      rcases (getElem?_set_eq_some _ _ _ _ _ _ h1).mp hx with ⟨rfl, rfl⟩ | ⟨-, h'⟩
      · exact ⟨j, w, h1, hk⟩
      · exact ⟨j, x, h', hk⟩

theorem inv_deliver {s s' : State F} {i : Nat} (hI : Inv env m s)
    (h : step env m s (Action.deliver i) = some s') : Inv env m s' := by
  obtain ⟨w, e, h1, h2, h3, hcase⟩ := step_deliver env m h
  have hlt : w.pc < (workerSends env m w.page).length := (List.getElem?_eq_some.mp h2).1
  have hfin : w.finished = false := by
    cases hf : w.finished with
    | false => rfl
    | true => have := (hI.pc i w h1).2 hf; omega
  have ht := hI.tokens
  have hw := hI.wg
  have hc := countP_set_of_getElem? (fun w : Worker => !w.finished) s.workers i w
    { w with pc := w.pc + 1 } h1
  have hcnt : List.countP (fun w : Worker => !w.finished)
      (s.workers.set i { w with pc := w.pc + 1 })
      = List.countP (fun w : Worker => !w.finished) s.workers := by
    have e1 : (!w.finished) = true := by simp [hfin]
    simp only [e1, if_true] at hc; omega
  have hmap := map_set_same (fun w : Worker => w.page) s.workers i w
    { w with pc := w.pc + 1 } h1 rfl
  have hpc : ∀ (j : Nat) (x : Worker),
      (s.workers.set i { w with pc := w.pc + 1 })[j]? = some x →
      x.pc ≤ (workerSends env m x.page).length
        ∧ (x.finished = true → x.pc = (workerSends env m x.page).length) := by
    intro j x hx
    rcases (getElem?_set_eq_some _ _ _ _ _ _ h1).mp hx with ⟨-, rfl⟩ | ⟨-, h'⟩
    · exact ⟨hlt, fun hf => by simp [hfin] at hf⟩
    · exact hI.pc j x h'
  have hrem : ∀ p, p ∈ (s.collector.receive e).remaining.keys ↔
      p ∈ m.pages ∧ ∀ (j : Nat) (x : Worker),
        (s.workers.set i { w with pc := w.pc + 1 })[j]? = some x → x.page = p →
        x.pc < (workerSends env m p).length := by
    intro p
    by_cases hd : ∃ q : Int, e = Event.done q
    · obtain ⟨q, rfl⟩ := hd
      obtain ⟨hq1, rfl⟩ := workerSends_getElem?_done env m w.page w.pc q h2
      simp only [Collector.receive]
      rw [GoMap.mem_keys_delete, hI.remaining p]
      constructor
      · rintro ⟨hne, hp1, hp2⟩
        refine ⟨hp1, fun j x hx hxp => ?_⟩
        rcases (getElem?_set_eq_some _ _ _ _ _ _ h1).mp hx with ⟨-, rfl⟩ | ⟨-, h'⟩
        · exact absurd hxp.symm hne
        · exact hp2 j x h' hxp
      · rintro ⟨hp1, hp2⟩
        have hne : p ≠ w.page := by
          intro hpw
          have := hp2 i { w with pc := w.pc + 1 }
            ((getElem?_set_eq_some _ _ _ _ _ _ h1).mpr (Or.inl ⟨rfl, rfl⟩)) hpw.symm
          rw [hpw] at this
          simp only at this
          omega
        refine ⟨hne, hp1, fun j x hx hxp => ?_⟩
        by_cases hji : j = i
        · subst hji
          obtain rfl : w = x := by rw [h1] at hx; exact Option.some.inj hx
          exact absurd hxp.symm hne
        · exact hp2 j x ((getElem?_set_eq_some _ _ _ _ _ _ h1).mpr (Or.inr ⟨hji, hx⟩)) hxp
    · have hd' : ∀ q : Int, e ≠ Event.done q := fun q hq => hd ⟨q, hq⟩
      have hlt' : w.pc + 1 < (workerSends env m w.page).length := by
        by_contra hcon
        have := workerSends_getElem?_last env m w.page w.pc e h2 (by omega)
        exact hd' _ this
      rw [receive_remaining_of_not_done _ _ hd', hI.remaining p]
      constructor
      · rintro ⟨hp1, hp2⟩
        refine ⟨hp1, fun j x hx hxp => ?_⟩
        rcases (getElem?_set_eq_some _ _ _ _ _ _ h1).mp hx with ⟨-, rfl⟩ | ⟨-, h'⟩
        · simp only at hxp ⊢
          rw [← hxp]; exact hlt'
        · exact hp2 j x h' hxp
      · rintro ⟨hp1, hp2⟩
        refine ⟨hp1, fun j x hx hxp => ?_⟩
        by_cases hji : j = i
        · subst hji
          obtain rfl : w = x := by rw [h1] at hx; exact Option.some.inj hx
          rw [← hxp]; exact hlt
        · exact hp2 j x ((getElem?_set_eq_some _ _ _ _ _ _ h1).mpr (Or.inr ⟨hji, hx⟩)) hxp
  have hnd := nodup_keys_receive s.collector e hI.nodup
  have hprod : ∀ k, k ∈ (s.collector.receive e).productResult.keys ↔
      ∃ (j : Nat) (x : Worker), (s.workers.set i { w with pc := w.pc + 1 })[j]? = some x
        ∧ k ∈ (productsOf (x.sent env m)).map fun p => p.ID := by
    intro k
    have hs := sent_succ env m w e h2
    rw [mem_keys_receive, hI.products k]
    constructor
    · rintro (⟨j, x, hx, hk⟩ | hk)
      · by_cases hji : j = i
        · subst hji
          obtain rfl : w = x := by rw [h1] at hx; exact Option.some.inj hx
          refine ⟨j, { w with pc := w.pc + 1 },
            (getElem?_set_eq_some _ _ _ _ _ _ h1).mpr (Or.inl ⟨rfl, rfl⟩), ?_⟩
          rw [hs, productsOf_append, List.map_append, List.mem_append]
          exact Or.inl hk
        · exact ⟨j, x, (getElem?_set_eq_some _ _ _ _ _ _ h1).mpr (Or.inr ⟨hji, hx⟩), hk⟩
      · refine ⟨i, { w with pc := w.pc + 1 },
          (getElem?_set_eq_some _ _ _ _ _ _ h1).mpr (Or.inl ⟨rfl, rfl⟩), ?_⟩
        rw [hs, productsOf_append, List.map_append, List.mem_append]
        exact Or.inr hk
    · rintro ⟨j, x, hx, hk⟩
      rcases (getElem?_set_eq_some _ _ _ _ _ _ h1).mp hx with ⟨-, rfl⟩ | ⟨-, h'⟩
      · rw [hs, productsOf_append, List.map_append, List.mem_append] at hk
        rcases hk with hk | hk
        · exact Or.inl ⟨i, w, h1, hk⟩
        · exact Or.inr hk
      · exact Or.inl ⟨j, x, h', hk⟩
  simp only [inFlight, unfinished] at ht hw
  rcases hcase with ⟨hlen, rfl⟩ | ⟨hlen, rfl⟩
  · constructor
    · simp only [inFlight, unfinished, hcnt]; exact ht
    · simp only [unfinished, hcnt]; simp [h3] at hw ⊢; omega
    · simp only [hmap]; exact hI.pages
    · exact hpc
    · exact hI.closed
    · exact hI.main
    · intro hm
      have := hI.returned hm
      simp only at this ⊢
      omega
    · intro _; exact hlen
    · intro _ _; rfl
    · exact hrem
    · exact hnd
    · exact hprod
  · constructor
    · simp only [inFlight, unfinished, hcnt]; exact ht
    · simp only [unfinished, hcnt]; exact hw
    · simp only [hmap]; exact hI.pages
    · exact hpc
    · exact hI.closed
    · exact hI.main
    · exact hI.returned
    · intro hcol; simp [h3] at hcol
    · intro _ hl; exact absurd hl hlen
    · exact hrem
    · exact hnd
    · exact hprod

/-- Every step of `Execute` keeps the invariant. -/
theorem step_inv {s s' : State F} (a : Action) (hI : Inv env m s)
    (h : step env m s a = some s') : Inv env m s' := by
  cases a with
  | acquire => exact inv_acquire env m hI h
  | enqueue => exact inv_enqueue env m hI h
  | close => exact inv_close env m hI h
  | spawn => exact inv_spawn env m hI h
  | endRange => exact inv_endRange env m hI h
  | deliver i => exact inv_deliver env m hI h
  | release i => exact inv_release env m hI h
  | wait => exact inv_wait env m hI h

theorem run_inv (sched : List Action) {s s' : State F} (hI : Inv env m s)
    (h : run env m s sched = some s') : Inv env m s' := by
  induction sched generalizing s with
  | nil =>
    simp only [run, Option.some.injEq] at h
    subst h; exact hI
  | cons a rest ih =>
    rw [run] at h
    cases hs : step env m s a with
    | none => rw [hs] at h; exact absurd h (by simp)
    | some s1 =>
      rw [hs] at h
      exact ih (step_inv env m a hI hs) h

/-- The invariant holds in every state a schedule reaches. -/
theorem exec_inv (sched : List Action) {s : State F} (h : exec env m sched = some s) :
    Inv env m s := by
  unfold exec at h
  cases h0 : (init m : Option (State F)) with
  | none => rw [h0] at h; exact absurd h (by simp)
  | some s0 =>
    rw [h0] at h
    exact run_inv env m sched (init_inv env m s0 h0) h

end Invariant

theorem unfinished_pos {F : Type} {s : State F} {i : Nat} {w : Worker}
    (h : s.workers[i]? = some w) (hf : w.finished = false) : 0 < unfinished s := by
  unfold unfinished
  rw [List.countP_pos_iff]
  exact ⟨w, List.getElem?_mem h, by simp [hf]⟩

/-- C8: the pool starts with P tokens and no page in flight; in every state of a
run the tokens in the pool plus the pages between acquire and release make P, so at
most P pages are in flight, and the deferred release of a worker that has completed
its sends finds room in the pool. -/
theorem rateLimit_bounds_in_flight {F : Type} [Float64 F] (env : Env F) (m : menyRequest)
    (sched : List Action) (s : State F) (h : exec env m sched = some s) :
    (∃ s0 : State F, init m = some s0 ∧ s0.rateLimit = m.parallel ∧ inFlight s0 = 0)
    ∧ s.rateLimit + inFlight s = m.parallel
    ∧ inFlight s ≤ m.parallel
    ∧ (∀ (i : Nat) (w : Worker), s.workers[i]? = some w → w.finished = false →
        w.pc = (workerSends env m w.page).length →
        ∃ s', step env m s (Action.release i) = some s' ∧ s'.rateLimit = s.rateLimit + 1) := by
  have hI := exec_inv env m sched h
  have ht := hI.tokens
  refine ⟨⟨_, init_eq m, rfl, by simp [inFlight, unfinished]⟩, ht, by omega, ?_⟩
  intro i w hw hf hpc
  have hpos := unfinished_pos hw hf
  have hlt : s.rateLimit < m.parallel := by
    simp only [inFlight] at ht; omega
  have hstep : step env m s (Action.release i)
      = some { s with rateLimit := s.rateLimit + 1, wg := s.wg - 1,
                      workers := s.workers.set i { w with finished := true } } := by
    simp only [step, hw]
    rw [if_pos ⟨hf, hpc, hlt⟩]
  exact ⟨_, hstep, rfl⟩

/-- C8, on the example: after page 1 is acquired, sent and its worker started, the
pool of size 1 is empty and one page is in flight. -/
theorem rateLimit_bounds_in_flight_witness :
    (exec exampleEnv exampleRequest [Action.acquire, Action.enqueue, Action.spawn]).isSome = true
    ∧ ∀ s, exec exampleEnv exampleRequest [Action.acquire, Action.enqueue, Action.spawn] = some s →
        s.rateLimit + inFlight s = exampleRequest.parallel :=
  ⟨by decide, fun s h =>
    (rateLimit_bounds_in_flight exampleEnv exampleRequest
      [Action.acquire, Action.enqueue, Action.spawn] s h).2.1⟩

/-! ## Every run is finite -/

section Budget

variable {F : Type} [Float64 F] (env : Env F) (m : menyRequest)

/-- Every step takes one off the budget. -/
theorem budget_step {s s' : State F} (a : Action) (hI : Inv env m s)
    (h : step env m s a = some s') : budget env m s' + 1 = budget env m s := by
  cases a with
  | acquire =>
    obtain ⟨page, rest, h1, h2, h3, rfl⟩ := step_acquire env m h
    simp only [budget, h1, h2]
    simp; omega
  | enqueue =>
    obtain ⟨page, h1, h2, rfl⟩ := step_enqueue env m h
    simp only [budget, h1]
    simp; omega
  | close =>
    obtain ⟨h1, h2, h3, rfl⟩ := step_close env m h
    simp only [budget, h3]
    simp; omega
  | spawn =>
    obtain ⟨page, rest, h1, h2, rfl⟩ := step_spawn env m h
    simp only [budget, h1, h2]
    simp; omega
  | endRange =>
    obtain ⟨h1, h2, h3, rfl⟩ := step_endRange env m h
    simp only [budget, h1]
  | wait =>
    obtain ⟨h1, h2, rfl⟩ := step_wait env m h
    simp only [budget, h1]
  | release i =>
    obtain ⟨w, h1, h2, h3, h4, rfl⟩ := step_release env m h
    have hs := sum_map_set_of_getElem?
      (fun w : Worker => if w.finished then 0 else (workerSends env m w.page).length - w.pc + 1)
      s.workers i w { w with finished := true } h1
    simp only [h2, Bool.false_eq_true, if_false, if_true] at hs
    simp only [budget, h2]
    omega
  | deliver i =>
    obtain ⟨w, e, h1, h2, h3, hcase⟩ := step_deliver env m h
    have hlt : w.pc < (workerSends env m w.page).length := (List.getElem?_eq_some.mp h2).1
    have hfin : w.finished = false := by
      cases hf : w.finished with
      | false => rfl
      | true => have := (hI.pc i w h1).2 hf; omega
    have hs := sum_map_set_of_getElem?
      (fun w : Worker => if w.finished then 0 else (workerSends env m w.page).length - w.pc + 1)
      s.workers i w { w with pc := w.pc + 1 } h1
    simp only [hfin, Bool.false_eq_true, if_false] at hs
    rcases hcase with ⟨-, rfl⟩ | ⟨-, rfl⟩ <;>
    · simp only [budget, hfin]
      omega

theorem run_budget (sched : List Action) {s s' : State F} (hI : Inv env m s)
    (h : run env m s sched = some s') : budget env m s' + sched.length = budget env m s := by
  induction sched generalizing s with
  | nil =>
    simp only [run, Option.some.injEq] at h
    subst h; rfl
  | cons a rest ih =>
    rw [run] at h
    cases hs : step env m s a with
    | none => rw [hs] at h; exact absurd h (by simp)
    | some s1 =>
      rw [hs] at h
      have := ih (step_inv env m a hI hs) h
      have := budget_step env m a hI hs
      simp only [List.length_cons]
      omega

theorem run_append (l1 l2 : List Action) (s : State F) :
    run env m s (l1 ++ l2) = (run env m s l1).bind fun s1 => run env m s1 l2 := by
  induction l1 generalizing s with
  | nil => simp [run]
  | cons a rest ih =>
    simp only [List.cons_append, run]
    cases step env m s a with
    | none => simp
    | some s1 => exact ih s1

end Budget

/-! ## No run of `Execute` over distinct pages gets stuck -/

theorem index_unique_of_nodup_map {A B : Type} (f : A → B) (l : List A)
    (hnd : (l.map f).Nodup) {i j : Nat} {x y : A} (hx : l[i]? = some x) (hy : l[j]? = some y)
    (hxy : f x = f y) : i = j := by
  obtain ⟨hi, hxi⟩ := List.getElem?_eq_some.mp hx
  obtain ⟨hj, hyj⟩ := List.getElem?_eq_some.mp hy
  have hi' : i < (l.map f).length := by simpa using hi
  have hj' : j < (l.map f).length := by simpa using hj
  have : (l.map f)[i] = (l.map f)[j] := by
    simp only [List.getElem_map, hxi, hyj, hxy]
  exact (List.Nodup.getElem_inj_iff hnd).mp this

section Progress

variable {F : Type} [Float64 F] (env : Env F) (m : menyRequest)

theorem can_step_of_isSome {s : State F} (a : Action) (h : (step env m s a).isSome = true) :
    ∃ a s', step env m s a = some s' :=
  ⟨a, Option.isSome_iff_exists.mp h⟩

/-- A worker that has not finished can take a step: its next send while the
collector runs, its deferred release after its last send. -/
theorem worker_can_step {s : State F} (hI : Inv env m s) (hnd : m.pages.Nodup)
    {i : Nat} {w : Worker} (hw : s.workers[i]? = some w) (hf : w.finished = false) :
    ∃ a s', step env m s a = some s' := by
  have hpos := unfinished_pos hw hf
  have ht := hI.tokens
  by_cases hpc : w.pc = (workerSends env m w.page).length
  · have hlt : s.rateLimit < m.parallel := by
      simp only [inFlight] at ht; omega
    apply can_step_of_isSome env m (Action.release i)
    simp only [step, hw]
    rw [if_pos ⟨hf, hpc, hlt⟩]; rfl
  · have hlt : w.pc < (workerSends env m w.page).length := by
      have := (hI.pc i w hw).1; omega
    have hcol : s.collecting = true := by
      cases hc : s.collecting with
      | true => rfl
      | false =>
        exfalso
        have hlen := hI.exited hc
        have hnot := (GoMap.len_eq_zero_iff _).mp hlen w.page
        apply hnot
        rw [hI.remaining]
        have hwnd : (s.workers.map fun w => w.page).Nodup := by
          have := hI.pages
          rw [← this] at hnd
          exact List.Nodup.of_append_left hnd
        refine ⟨?_, fun j x hx hxp => ?_⟩
        · rw [← hI.pages]
          apply List.mem_append_left
          exact List.mem_map.mpr ⟨w, List.getElem?_mem hw, rfl⟩
        · have hji := index_unique_of_nodup_map (fun w : Worker => w.page) s.workers hwnd hx hw hxp
          subst hji
          obtain rfl : w = x := by rw [hw] at hx; exact Option.some.inj hx
          exact hlt
    have he : (workerSends env m w.page)[w.pc]? = some (workerSends env m w.page)[w.pc] :=
      List.getElem?_eq_getElem hlt
    apply can_step_of_isSome env m (Action.deliver i)
    simp only [step, hw, he, hcol, if_true]
    split <;> rfl

/-- Progress: with a positive pool size and distinct pages, at least one of them,
a run that has not returned can take a step. -/
theorem progress {s : State F} (hI : Inv env m s) (hP : 0 < m.parallel) (hnd : m.pages.Nodup)
    (hne : m.pages ≠ []) (hm : s.main ≠ MainPc.returned) :
    ∃ a s', step env m s a = some s' := by
  have ht := hI.tokens
  simp only [inFlight] at ht
  cases hh : s.holding with
  | some page =>
    have hlt : s.c.length < m.parallel := by
      simp only [hh] at ht; simp at ht; omega
    apply can_step_of_isSome env m Action.enqueue
    simp only [step, hh]; rw [if_pos hlt]; rfl
  | none =>
    simp only [hh] at ht
    have hworker : 0 < unfinished s → ∃ a s', step env m s a = some s' := by
      intro hu
      unfold unfinished at hu
      rw [List.countP_pos_iff] at hu
      obtain ⟨w, hwm, hwf⟩ := hu
      obtain ⟨i, hi⟩ := List.mem_iff_getElem?.mp hwm
      exact worker_can_step env m hI hnd hi (by simpa using hwf)
    have hspawn : s.main = MainPc.ranging → s.c ≠ [] → ∃ a s', step env m s a = some s' := by
      intro hr hc
      obtain ⟨q, rest, hq⟩ := List.exists_cons_of_ne_nil hc
      apply can_step_of_isSome env m Action.spawn
      simp only [step, hr, hq]; rfl
    cases htodo : s.todo with
    | cons page rest =>
      have hnc : s.closed = false := by
        cases hc : s.closed with
        | false => rfl
        | true => have := (hI.closed hc).2; simp [htodo] at this
      have hr : s.main = MainPc.ranging := by
        by_contra hr
        have := (hI.main hr).2
        simp [hnc] at this
      by_cases hrl : 0 < s.rateLimit
      · apply can_step_of_isSome env m Action.acquire
        simp only [step, hh, htodo]; rw [if_pos hrl]; rfl
      · by_cases hc : s.c = []
        · apply hworker
          simp [hc] at ht; omega
        · exact hspawn hr hc
    | nil =>
      cases hc : s.closed with
      | false =>
        apply can_step_of_isSome env m Action.close
        simp only [step]; rw [if_pos ⟨hh, htodo, hc⟩]; rfl
      | true =>
        cases hmn : s.main with
        | returned => exact absurd hmn hm
        | ranging =>
          by_cases hcc : s.c = []
          · apply can_step_of_isSome env m Action.endRange
            simp only [step]; rw [if_pos ⟨hmn, hcc, hc⟩]; rfl
          · exact hspawn hmn hcc
        | waiting =>
          by_cases hwg : s.wg = 0
          · apply can_step_of_isSome env m Action.wait
            simp only [step]; rw [if_pos ⟨hmn, hwg⟩]; rfl
          · by_cases hu : 0 < unfinished s
            · exact hworker hu
            · exfalso
              have hu0 : unfinished s = 0 := by omega
              have hcol : s.collecting = true := by
                have := hI.wg
                cases hcl : s.collecting with
                | true => rfl
                | false => simp [hcl, hu0] at this; exact absurd this hwg
              have hcn : s.c = [] := (hI.main (by simp [hmn])).1
              have hpages := hI.pages
              simp only [hcn, hh, htodo, Option.toList, List.append_nil] at hpages
              have hall : ∀ w ∈ s.workers, w.finished = true := by
                unfold unfinished at hu0
                rw [List.countP_eq_zero] at hu0
                intro w hw
                have := hu0 w hw
                simpa using this
              have hlen : s.collector.remaining.len = 0 := by
                rw [GoMap.len_eq_zero_iff]
                intro p hp
                obtain ⟨hp1, hp2⟩ := (hI.remaining p).mp hp
                rw [← hpages] at hp1
                obtain ⟨w, hwm, hwp⟩ := List.mem_map.mp hp1
                obtain ⟨i, hi⟩ := List.mem_iff_getElem?.mp hwm
                have h1 := hp2 i w hi hwp
                have h2 := (hI.pc i w hi).2 (hall w hwm)
                rw [hwp] at h2
                omega
              have := hI.collecting hne hlen
              rw [hcol] at this
              exact absurd this (by simp)

/-- Every run over distinct pages, at least one of them, with a positive pool size
can be continued until `Execute` returns. -/
theorem run_completes (hP : 0 < m.parallel) (hnd : m.pages.Nodup) (hne : m.pages ≠ [])
    (n : Nat) (s : State F) (hI : Inv env m s) (hb : budget env m s ≤ n) :
    ∃ ext s', run env m s ext = some s' ∧ s'.main = MainPc.returned := by
  induction n generalizing s with
  | zero =>
    by_cases hm : s.main = MainPc.returned
    · exact ⟨[], s, rfl, hm⟩
    · obtain ⟨a, s1, hs⟩ := progress env m hI hP hnd hne hm
      have := budget_step env m a hI hs
      omega
  | succ n ih =>
    by_cases hm : s.main = MainPc.returned
    · exact ⟨[], s, rfl, hm⟩
    · obtain ⟨a, s1, hs⟩ := progress env m hI hP hnd hne hm
      have hb1 := budget_step env m a hI hs
      obtain ⟨ext, s', h1, h2⟩ := ih s1 (step_inv env m a hI hs) (by omega)
      exact ⟨a :: ext, s', by simp [run, hs, h1], h2⟩

end Progress

/-! ## What `Execute` returns -/

theorem productsOf_Read {F : Type} [Float64 F] (toLower : String → String)
    (rows : List (sourceRow F)) (clock : Nat → Nat) :
    (productsOf (response.Read toLower clock rows)).map (fun p => p.ID)
      = (rows.filter fun row => normalises toLower row).map fun row => row.ImageGtin := by
  induction rows generalizing clock with
  | nil => simp [response.Read, productsOf]
  | cons row rest ih =>
    rw [response.Read]
    cases h : row.product toLower with
    | error err =>
      simp only [productsOf, ih]
      simp [List.filter_cons, normalises, h]
    | ok p =>
      have hid := (product_ok_fields toLower row p h).1
      simp only [productsOf, List.map_cons, ih]
      simp [List.filter_cons, normalises, h, hid]

section Final

variable {F : Type} [Float64 F] (env : Env F) (m : menyRequest)

theorem productsOf_workerSends (page : Int) :
    (productsOf (workerSends env m page)).map (fun p => p.ID)
      = (normalisedRows env m page).map fun row => row.ImageGtin := by
  unfold workerSends normalisedRows
  cases h : env.call page m.pagesize with
  | error err => simp [productsOf_append, productsOf]
  | ok rows => simp [productsOf_append, productsOf, productsOf_Read]

/-- When `Execute` has returned, the collector has returned, every page has had
its worker, and every worker has completed all its sends. -/
theorem returned_state {s : State F} (hI : Inv env m s) (hm : s.main = MainPc.returned) :
    s.collecting = false
    ∧ (s.workers.map fun w => w.page) = m.pages
    ∧ ∀ (i : Nat) (w : Worker), s.workers[i]? = some w →
        w.finished = true ∧ w.pc = (workerSends env m w.page).length := by
  have hwg := hI.returned hm
  have hw := hI.wg
  rw [hwg] at hw
  have hcol : s.collecting = false := by
    cases hc : s.collecting with
    | false => rfl
    | true => simp only [hc, if_true] at hw; omega
  have hu : unfinished s = 0 := by omega
  obtain ⟨hc, hcl⟩ := hI.main (by simp [hm])
  obtain ⟨hh, htodo⟩ := hI.closed hcl
  have hpages := hI.pages
  simp only [hc, hh, htodo, Option.toList, List.append_nil] at hpages
  refine ⟨hcol, hpages, fun i w hi => ?_⟩
  have hf : w.finished = true := by
    unfold unfinished at hu
    rw [List.countP_eq_zero] at hu
    have := hu w (List.getElem?_mem hi)
    simpa using this
  exact ⟨hf, (hI.pc i w hi).2 hf⟩

/-- When `Execute` has returned, the keys of the product map are the product codes
of the normalised rows of all pages. -/
theorem returned_keys {s : State F} (hI : Inv env m s) (hm : s.main = MainPc.returned)
    (k : String) : k ∈ s.collector.productResult.keys ↔ k ∈ normalisedCodes env m := by
  obtain ⟨-, hpages, hall⟩ := returned_state env m hI hm
  rw [hI.products k]
  unfold normalisedCodes
  rw [List.mem_flatMap]
  constructor
  · rintro ⟨i, w, hi, hk⟩
    have hpc := (hall i w hi).2
    refine ⟨w.page, ?_, ?_⟩
    · rw [← hpages]; exact List.mem_map.mpr ⟨w, List.getElem?_mem hi, rfl⟩
    · rw [← productsOf_workerSends]
      simpa [Worker.sent, hpc] using hk
  · rintro ⟨p, hp, hk⟩
    rw [← hpages] at hp
    obtain ⟨w, hwm, rfl⟩ := List.mem_map.mp hp
    obtain ⟨i, hi⟩ := List.mem_iff_getElem?.mp hwm
    have hpc := (hall i w hi).2
    refine ⟨i, w, hi, ?_⟩
    rw [← productsOf_workerSends] at hk
    simpa [Worker.sent, hpc] using hk

theorem exec_of_Execute {sched : List Action} {res : ExecuteResult F}
    (h : Execute env m sched = some res) :
    ∃ s, exec env m sched = some s ∧ s.main = MainPc.returned
      ∧ res = { products := s.collector.productResult.values,
                prices := s.collector.pricePointResult.values } := by
  unfold Execute at h
  cases hs : exec env m sched with
  | none => rw [hs] at h; exact absurd h (by simp)
  | some s =>
    rw [hs] at h
    simp only at h
    by_cases hm : s.main = MainPc.returned
    · rw [if_pos hm] at h
      exact ⟨s, rfl, hm, (Option.some.inj h).symm⟩
    · rw [if_neg hm] at h; exact absurd h (by simp)

theorem exec_append (l1 l2 : List Action) :
    exec env m (l1 ++ l2) = (exec env m l1).bind fun s1 => run env m s1 l2 := by
  unfold exec
  cases (init m : Option (State F)) with
  | none => rfl
  | some s0 => exact run_append env m l1 l2 s0

theorem Execute_of_exec {sched : List Action} {s : State F} (h : exec env m sched = some s)
    (hm : s.main = MainPc.returned) :
    Execute env m sched = some { products := s.collector.productResult.values,
                                 prices := s.collector.pricePointResult.values } := by
  unfold Execute
  rw [h]
  simp only [hm, if_true]

/-- Every state of a run over distinct pages, at least one of them, with a positive
pool size, has a continuation in which `Execute` returns. -/
theorem exec_completes (hP : 0 < m.parallel) (hnd : m.pages.Nodup) (hne : m.pages ≠ [])
    {sched : List Action} {s : State F} (h : exec env m sched = some s) :
    ∃ ext s', exec env m (sched ++ ext) = some s' ∧ s'.main = MainPc.returned := by
  have hI := exec_inv env m sched h
  obtain ⟨ext, s', h1, h2⟩ := run_completes env m hP hnd hne _ s hI (Nat.le_refl _)
  exact ⟨ext, s', by rw [exec_append, h]; exact h1, h2⟩

/-- For distinct pages, at least one of them, a positive pool size, and product
codes that no two normalised rows share: every run can be continued until `Execute`
returns, no run is longer than the budget of the initial state, and the products
`Execute` returns number the normalised rows of all pages. -/
theorem Execute_counts_normalised_rows (hP : 0 < m.parallel) (hnd : m.pages.Nodup)
    (hne : m.pages ≠ []) (hcodes : (normalisedCodes env m).Nodup) :
    (∀ (sched : List Action) (s : State F), exec env m sched = some s →
      ∃ ext res, Execute env m (sched ++ ext) = some res)
    ∧ (∀ (sched : List Action) (s s0 : State F), init m = some s0 → exec env m sched = some s →
      sched.length ≤ budget env m s0)
    ∧ (∀ (sched : List Action) (res : ExecuteResult F), Execute env m sched = some res →
      res.products.length = normalisedCount env m) := by
  refine ⟨?_, ?_, ?_⟩
  · intro sched s h
    obtain ⟨ext, s', h1, h2⟩ := exec_completes env m hP hnd hne h
    exact ⟨ext, _, Execute_of_exec env m h1 h2⟩
  · intro sched s s0 h0 h
    unfold exec at h
    rw [h0] at h
    have := run_budget env m sched (init_inv env m s0 h0) h
    omega
  · intro sched res h
    obtain ⟨s, hs, hm, rfl⟩ := exec_of_Execute env m h
    have hI := exec_inv env m sched hs
    have hperm : s.collector.productResult.keys.Perm (normalisedCodes env m) :=
      (List.perm_ext_iff_of_nodup hI.nodup hcodes).mpr (returned_keys env m hI hm)
    have hlen := hperm.length_eq
    simp only [GoMap.length_values]
    rw [← GoMap.length_keys, hlen]
    unfold normalisedCodes normalisedCount
    rw [List.length_flatMap]
    congr 1
    apply List.map_congr_left
    intro p _
    simp

end Final

/-- C4: whatever `call` returns, the sends of a worker hold exactly one page-done
signal, `done <- page`, and it is the last send; when `call` fails, the sends are
one error and then that signal, with no product, price point or vendor; when it
succeeds, they are the sends of `Read` and then that signal. In every state of a
run the sends a worker has completed are an initial part of that sequence, and once
`Execute` has returned every worker has completed all of it. -/
theorem worker_done_once {F : Type} [Float64 F] (env : Env F) (m : menyRequest) :
    (∀ page : Int,
      (workerSends env m page).filter Event.isDone = [Event.done page]
      ∧ (workerSends env m page).getLast? = some (Event.done page)
      ∧ (∀ err, env.call page m.pagesize = .error err →
          workerSends env m page
            = [Event.error (.rowErr { row := sourceRow.zero, err := err }), Event.done page])
      ∧ (∀ rows, env.call page m.pagesize = .ok rows →
          workerSends env m page
            = response.Read env.toLower (env.now page) rows ++ [Event.done page]))
    ∧ (∀ (sched : List Action) (s : State F), exec env m sched = some s →
        ∀ (i : Nat) (w : Worker), s.workers[i]? = some w →
          (∃ rest, workerSends env m w.page = w.sent env m ++ rest)
          ∧ (s.main = MainPc.returned → w.sent env m = workerSends env m w.page)) := by
  constructor
  · intro page
    obtain ⟨pre, h1, h2, h3, h4⟩ := workerSends_split env m page
    refine ⟨?_, ?_, ?_, ?_⟩
    · rw [h1, List.filter_append, filter_isDone_eq_nil pre h2]
      simp [Event.isDone]
    · rw [h1]; simp
    · intro err h; rw [h1, h3 err h]; rfl
    · intro rows h; rw [h1, h4 rows h]
  · intro sched s h i w hw
    refine ⟨⟨(workerSends env m w.page).drop w.pc, ?_⟩, fun hm => ?_⟩
    · simp [Worker.sent]
    · have hI := exec_inv env m sched h
      have := ((returned_state env m hI hm).2.2 i w hw).2
      simp [Worker.sent, this]

/-! ## A run over no pages -/

section Empty

variable {F : Type} [Float64 F] (env : Env F) (m : menyRequest)

theorem idle_step {s s' : State F} (a : Action) (hI : Idle s)
    (h : step env m s a = some s') : Idle s' := by
  obtain ⟨h1, h2, h3, h4, h5, h6, h7, h8⟩ := hI
  cases a with
  | acquire =>
    obtain ⟨page, rest, -, e, -⟩ := step_acquire env m h
    rw [h4] at e; exact absurd e (by simp)
  | enqueue =>
    obtain ⟨page, e, -⟩ := step_enqueue env m h
    rw [h3] at e; exact absurd e (by simp)
  | close =>
    obtain ⟨-, -, -, rfl⟩ := step_close env m h
    exact ⟨h1, h2, h3, h4, h5, h6, h7, h8⟩
  | spawn =>
    obtain ⟨page, rest, -, e, -⟩ := step_spawn env m h
    rw [h2] at e; exact absurd e (by simp)
  | endRange =>
    obtain ⟨-, -, -, rfl⟩ := step_endRange env m h
    exact ⟨h1, h2, h3, h4, h5, h6, by simp, h8⟩
  | wait =>
    obtain ⟨-, e, -⟩ := step_wait env m h
    rw [h6] at e; exact absurd e (by simp)
  | release i =>
    obtain ⟨w, e, -⟩ := step_release env m h
    rw [h1] at e; exact absurd e (by simp)
  | deliver i =>
    obtain ⟨w, ev, e, -⟩ := step_deliver env m h
    rw [h1] at e; exact absurd e (by simp)

theorem idle_run (sched : List Action) {s s' : State F} (hI : Idle s)
    (h : run env m s sched = some s') : Idle s' := by
  induction sched generalizing s with
  | nil =>
    simp only [run, Option.some.injEq] at h
    subst h; exact hI
  | cons a rest ih =>
    rw [run] at h
    cases hs : step env m s a with
    | none => rw [hs] at h; exact absurd h (by simp)
    | some s1 =>
      rw [hs] at h
      exact ih (idle_step env m a hI hs) h

theorem idle_exec (hp : m.pages = []) (sched : List Action) {s : State F}
    (h : exec env m sched = some s) : Idle s := by
  unfold exec at h
  rw [init_eq m] at h
  refine idle_run env m sched ?_ h
  simp [Idle, hp, newCollector]

end Empty

/-- C10, on the code: when the request has no page, `remaining` is empty from the
start, yet in every state of every run the collector is still in its loop, the
WaitGroup still counts it, and `Execute` has not returned; so `Execute` returns
under no schedule. -/
theorem collector_blocks_on_empty_pages {F : Type} [Float64 F] (env : Env F) (m : menyRequest)
    (hp : m.pages = []) (sched : List Action) (s : State F) (h : exec env m sched = some s) :
    s.collector.remaining.len = 0 ∧ s.collecting = true ∧ s.wg = 1
      ∧ s.main ≠ MainPc.returned
      ∧ collectorLoop (newCollector m.pages : Collector F) [] = (newCollector m.pages, false) := by
  obtain ⟨-, -, -, -, h5, h6, h7, h8⟩ := idle_exec env m hp sched h
  exact ⟨by simp [h8, GoMap.len], h5, h6, h7, rfl⟩

/-- C2, on the code: when the request has no page, `Execute` returns under no
schedule, so it returns no products at all, not the zero products the rows amount to. -/
theorem Execute_never_returns_without_pages {F : Type} [Float64 F] (env : Env F)
    (m : menyRequest) (hp : m.pages = []) (sched : List Action) :
    Execute env m sched = none ∧ normalisedCount env m = 0 := by
  refine ⟨?_, by simp [normalisedCount, hp]⟩
  cases hE : Execute env m sched with
  | none => rfl
  | some res =>
    obtain ⟨s, hs, hm, -⟩ := exec_of_Execute env m hE
    exact absurd hm (idle_exec env m hp sched hs).2.2.2.2.2.2.1

/-- The collector returns only once `remaining` is empty: in no state of a run has
it returned while a page is still in `remaining`. -/
theorem collector_exits_on_empty_remaining {F : Type} [Float64 F] (env : Env F)
    (m : menyRequest) (sched : List Action) (s : State F)
    (h : exec env m sched = some s) (hc : s.collecting = false) :
    s.collector.remaining.len = 0 :=
  (exec_inv env m sched h).exited hc


theorem pageRangeList_empty (start stop : Int) (h : stop < start) :
    pageRangeList start stop = [] := by
  unfold pageRangeList
  have : (stop + 1 - start).toNat = 0 := by omega
  simp [this]

theorem mem_pageRangeList (start stop p : Int) :
    p ∈ pageRangeList start stop ↔ start ≤ p ∧ p ≤ stop := by
  unfold pageRangeList
  simp only [List.mem_map, List.mem_range]
  constructor
  · rintro ⟨i, hi, rfl⟩
    omega
  · rintro ⟨h1, h2⟩
    exact ⟨(p - start).toNat, by omega, by omega⟩

theorem pageRangeList_nodup (start stop : Int) : (pageRangeList start stop).Nodup := by
  unfold pageRangeList
  apply List.Nodup.map
  · intro i j hij
    simp only at hij
    omega
  · exact List.nodup_range _

/-- C10, at `pageRange(2, 1)`: the page list is empty, the dispatcher closes `c`, the
caller leaves its loop, and the collector is still in its `select`. -/
theorem collector_blocks_on_empty_pages_witness :
    (newMenyApiRequest [pageRange 2 1]).pages = []
    ∧ (exec exampleEnv (newMenyApiRequest [pageRange 2 1])
        [Action.close, Action.endRange]).isSome = true
    ∧ ∀ s, exec exampleEnv (newMenyApiRequest [pageRange 2 1]) [Action.close, Action.endRange]
        = some s → s.collector.remaining.len = 0 ∧ s.collecting = true :=
  ⟨by decide, by decide, fun s h =>
    let r := collector_blocks_on_empty_pages exampleEnv (newMenyApiRequest [pageRange 2 1])
      (by decide) [Action.close, Action.endRange] s h
    ⟨r.1, r.2.1⟩⟩

/-- C2, at `pageRange(2, 1)`: after the dispatcher has closed `c` and the caller has
left its loop, `Execute` has not returned. -/
theorem Execute_never_returns_without_pages_witness :
    (newMenyApiRequest [pageRange 2 1]).pages = []
    ∧ Execute exampleEnv (newMenyApiRequest [pageRange 2 1]) [Action.close, Action.endRange]
        = none :=
  ⟨by decide, (Execute_never_returns_without_pages exampleEnv
    (newMenyApiRequest [pageRange 2 1]) (by decide) [Action.close, Action.endRange]).1⟩

/-! ## `MenyScraper.Fetch` -/

theorem fetchRequest_ok :
    0 < fetchRequest.parallel ∧ fetchRequest.pages.Nodup ∧ fetchRequest.pages ≠ []
      ∧ (1 : Int) ∈ fetchRequest.pages := by
  have hp : fetchRequest.pages = pageRangeList 1 500 := by
    simp only [fetchRequest, newMenyApiRequest, List.foldl, pageRange, pages, parallel,
      pageSize, rateLimit]
  have hq : fetchRequest.parallel = 4 := by
    simp only [fetchRequest, newMenyApiRequest, List.foldl, pageRange, pages, parallel,
      pageSize, rateLimit]
  refine ⟨by rw [hq]; decide, ?_, ?_, ?_⟩
  · rw [hp]; exact pageRangeList_nodup 1 500
  · rw [hp]
    intro h
    have : (1 : Int) ∈ pageRangeList 1 500 := (mem_pageRangeList 1 500 1).mpr (by omega)
    rw [h] at this
    exact absurd this (by simp)
  · rw [hp]; exact (mem_pageRangeList 1 500 1).mpr (by omega)

theorem Fetch_of_exec {F : Type} [Float64 F] (env : Env F) {sched : List Action} {s : State F}
    (h : exec env fetchRequest sched = some s) (hm : s.main = MainPc.returned) :
    MenyScraper.Fetch env sched = some (printedOf s, emptyFetchResult, none) := by
  unfold MenyScraper.Fetch FetchOn
  rw [Execute_of_exec env fetchRequest h hm]
  rfl

theorem Fetch_completes {F : Type} [Float64 F] (env : Env F) (sched : List Action) (s : State F)
    (h : exec env fetchRequest sched = some s) :
    ∃ ext s', exec env fetchRequest (sched ++ ext) = some s' ∧ s'.main = MainPc.returned
      ∧ MenyScraper.Fetch env (sched ++ ext) = some (printedOf s', emptyFetchResult, none) := by
  obtain ⟨hP, hnd, hne, -⟩ := fetchRequest_ok
  obtain ⟨ext, s', h1, h2⟩ := exec_completes env fetchRequest hP hnd hne h
  exact ⟨ext, s', h1, h2, Fetch_of_exec env h1 h2⟩

/-- C7 as amended: every run of `Fetch` can be continued until `Fetch` returns;
when it returns, the error is nil, the `FetchResult` is the empty one, and what the
run collected is printed: the values of the final price-point map, then the values
of the final product map. -/
theorem Fetch_prints_and_returns_empty {F : Type} [Float64 F] (env : Env F) :
    (∀ (sched : List Action) (s : State F), exec env fetchRequest sched = some s →
      ∃ ext s', exec env fetchRequest (sched ++ ext) = some s' ∧ s'.main = MainPc.returned
        ∧ MenyScraper.Fetch env (sched ++ ext) = some (printedOf s', emptyFetchResult, none))
    ∧ (∀ (sched : List Action) (r : List (Printed F) × FetchResult F × Option String),
      MenyScraper.Fetch env sched = some r →
      ∃ s, exec env fetchRequest sched = some s ∧ s.main = MainPc.returned
        ∧ r.2.2 = none
        ∧ r.2.1 = { Products := [], PricePoints := [], Vendors := [] }
        ∧ r.1 = s.collector.pricePointResult.values.map Printed.pricePoint
                ++ s.collector.productResult.values.map Printed.product) := by
  constructor
  · exact Fetch_completes env
  · intro sched r h
    unfold MenyScraper.Fetch FetchOn at h
    cases hE : Execute env fetchRequest sched with
    | none => rw [hE] at h; exact absurd h (by simp)
    | some res =>
      rw [hE] at h
      obtain ⟨s, hs, hm, rfl⟩ := exec_of_Execute env fetchRequest hE
      simp only [Option.some.injEq] at h
      subst h
      exact ⟨s, hs, hm, rfl, rfl, rfl⟩

/-- C7, at the start of a run on the example catalogue: the run can be continued
until `Fetch` returns, with no error and the empty `FetchResult`. -/
theorem Fetch_prints_and_returns_empty_witness :
    ∃ ext s', exec exampleEnv fetchRequest ([] ++ ext) = some s' ∧ s'.main = MainPc.returned
      ∧ MenyScraper.Fetch exampleEnv ([] ++ ext) = some (printedOf s', emptyFetchResult, none) :=
  (Fetch_prints_and_returns_empty exampleEnv).1 [] _ (init_eq fetchRequest)

/-- C7 as stated fails: on the example catalogue `Fetch` returns, under some
schedule, a `FetchResult` without products although the final product map of that
run holds the product A. -/
theorem Fetch_result_drops_products :
    ∃ (sched : List Action) (s : State Int)
      (r : List (Printed Int) × FetchResult Int × Option String),
      exec exampleEnv fetchRequest sched = some s
      ∧ MenyScraper.Fetch exampleEnv sched = some r
      ∧ r.2.1.Products = []
      ∧ "A" ∈ s.collector.productResult.keys
      ∧ r.2.1.Products ≠ s.collector.productResult.values := by
  obtain ⟨ext, s, h1, h2, h3⟩ := Fetch_completes exampleEnv [] _ (init_eq fetchRequest)
  have hI := exec_inv exampleEnv fetchRequest _ h1
  have hA : "A" ∈ s.collector.productResult.keys := by
    rw [returned_keys exampleEnv fetchRequest hI h2]
    unfold normalisedCodes
    rw [List.mem_flatMap]
    exact ⟨1, fetchRequest_ok.2.2.2, by decide⟩
  refine ⟨_, s, _, h1, h3, rfl, hA, ?_⟩
  intro h
  have hlen : s.collector.productResult.values.length = 0 := by
    rw [← h]; rfl
  rw [GoMap.length_values, ← GoMap.length_keys] at hlen
  have := List.length_pos_of_mem hA
  omega

/-! ## A pool of one token: pages are handled one after the other -/

theorem flatMap_set_same {A B : Type} (f : A → List B) (ws : List A) (i : Nat) (w w' : A)
    (h : ws[i]? = some w) (hf : f w' = f w) : (ws.set i w').flatMap f = ws.flatMap f := by
  induction ws generalizing i with
  | nil => simp
  | cons a rest ih =>
    cases i with
    | zero =>
      simp only [List.getElem?_cons_zero, Option.some.injEq] at h
      subst h
      simp [hf]
    | succ j =>
      simp only [List.getElem?_cons_succ] at h
      simp [ih j h]

theorem flatMap_set_last {A B : Type} (f : A → List B) (ws : List A) (i : Nat) (w w' : A)
    (h : ws[i]? = some w) (hi : i + 1 = ws.length) (tail : List B) (hf : f w' = f w ++ tail) :
    (ws.set i w').flatMap f = ws.flatMap f ++ tail := by
  induction ws generalizing i with
  | nil => simp at h
  | cons a rest ih =>
    cases i with
    | zero =>
      simp only [List.getElem?_cons_zero, Option.some.injEq] at h
      subst h
      have : rest = [] := by
        simp only [List.length_cons] at hi
        exact List.length_eq_zero.mp (by omega)
      subst this
      simp [hf]
    | succ j =>
      simp only [List.getElem?_cons_succ] at h
      simp only [List.length_cons] at hi
      simp [ih j h (by omega)]

section Seq

variable {F : Type} [Float64 F] (env : Env F) (m : menyRequest)

theorem init_sequential (s : State F) (h : init m = some s) : Sequential env m s := by
  rw [init_eq m] at h
  injection h with h
  subst h
  exact ⟨by simp, by intro i w hw; simp at hw⟩

theorem step_sequential {s s' : State F} (a : Action) (hP : m.parallel = 1) (hI : Inv env m s)
    (hS : Sequential env m s) (h : step env m s a = some s') : Sequential env m s' := by
  cases a with
  | acquire =>
    obtain ⟨page, rest, -, -, -, rfl⟩ := step_acquire env m h
    exact ⟨hS.collector, hS.earlier⟩
  | enqueue =>
    obtain ⟨page, -, -, rfl⟩ := step_enqueue env m h
    exact ⟨hS.collector, hS.earlier⟩
  | close =>
    obtain ⟨-, -, -, rfl⟩ := step_close env m h
    exact ⟨hS.collector, hS.earlier⟩
  | endRange =>
    obtain ⟨-, -, -, rfl⟩ := step_endRange env m h
    exact ⟨hS.collector, hS.earlier⟩
  | wait =>
    obtain ⟨-, -, rfl⟩ := step_wait env m h
    exact ⟨hS.collector, hS.earlier⟩
  | spawn =>
    obtain ⟨page, rest, h1, h2, rfl⟩ := step_spawn env m h
    have ht := hI.tokens
    simp only [inFlight, h2, hP, List.length_cons] at ht
    have hu : unfinished s = 0 := by omega
    constructor
    · simp only [List.flatMap_append, List.flatMap_cons, List.flatMap_nil, Worker.sent,
        List.take_zero, List.append_nil]
      exact hS.collector
    · intro i w hw hlen
      rcases (getElem?_concat_eq_some _ _ _ _).mp hw with h' | ⟨hi, rfl⟩
      · unfold unfinished at hu
        rw [List.countP_eq_zero] at hu
        have := hu w (List.getElem?_mem h')
        simpa using this
      · simp only [List.length_append, List.length_singleton] at hlen
        omega
  | release i =>
    obtain ⟨w, h1, h2, h3, h4, rfl⟩ := step_release env m h
    constructor
    · simp only
      rw [flatMap_set_same (fun w : Worker => w.sent env m) s.workers i w
        { w with finished := true } h1 rfl]
      exact hS.collector
    · intro j x hx hj
      simp only [List.length_set] at hj
      rcases (getElem?_set_eq_some _ _ _ _ _ _ h1).mp hx with ⟨-, rfl⟩ | ⟨-, h'⟩
      · rfl
      · exact hS.earlier j x h' hj
  | deliver i =>
    obtain ⟨w, e, h1, h2, h3, hcase⟩ := step_deliver env m h
    have hlt : w.pc < (workerSends env m w.page).length := (List.getElem?_eq_some.mp h2).1
    have hfin : w.finished = false := by
      cases hf : w.finished with
      | false => rfl
      | true => have := (hI.pc i w h1).2 hf; omega
    have hi : i < s.workers.length := (List.getElem?_eq_some.mp h1).1
    have hlast : i + 1 = s.workers.length := by
      by_contra hcon
      have := hS.earlier i w h1 (by omega)
      rw [hfin] at this
      exact absurd this (by simp)
    have hfm := flatMap_set_last (fun w : Worker => w.sent env m) s.workers i w
      { w with pc := w.pc + 1 } h1 hlast [e] (sent_succ env m w e h2)
    have hcol : s.collector.receive e
        = ((s.workers.set i { w with pc := w.pc + 1 }).flatMap fun w => w.sent env m).foldl
            Collector.receive (newCollector m.pages) := by
      rw [hfm, List.foldl_append, ← hS.collector]
      rfl
    have hearlier : ∀ (j : Nat) (x : Worker),
        (s.workers.set i { w with pc := w.pc + 1 })[j]? = some x →
        j + 1 < (s.workers.set i { w with pc := w.pc + 1 }).length → x.finished = true := by
      intro j x hx hj
      simp only [List.length_set] at hj
      rcases (getElem?_set_eq_some _ _ _ _ _ _ h1).mp hx with ⟨rfl, -⟩ | ⟨-, h'⟩
      · omega
      · exact hS.earlier j x h' hj
    rcases hcase with ⟨-, rfl⟩ | ⟨-, rfl⟩
    · exact ⟨hcol, hearlier⟩
    · exact ⟨hcol, hearlier⟩

theorem run_sequential (sched : List Action) (hP : m.parallel = 1) {s s' : State F}
    (hI : Inv env m s) (hS : Sequential env m s) (h : run env m s sched = some s') :
    Sequential env m s' := by
  induction sched generalizing s with
  | nil =>
    simp only [run, Option.some.injEq] at h
    subst h; exact hS
  | cons a rest ih =>
    rw [run] at h
    cases hs : step env m s a with
    | none => rw [hs] at h; exact absurd h (by simp)
    | some s1 =>
      rw [hs] at h
      exact ih (step_inv env m a hI hs) (step_sequential env m a hP hI hS hs) h

theorem exec_sequential (sched : List Action) (hP : m.parallel = 1) {s : State F}
    (h : exec env m sched = some s) : Sequential env m s := by
  unfold exec at h
  cases h0 : (init m : Option (State F)) with
  | none => rw [h0] at h; exact absurd h (by simp)
  | some s0 =>
    rw [h0] at h
    exact run_sequential env m sched hP (init_inv env m s0 h0) (init_sequential env m s0 h0) h

/-- With a pool of one token, when `Execute` has returned the collector has received
the sends of the pages one page after the other, in the order of `m.pages`. -/
theorem returned_collector_sequential (sched : List Action) (hP : m.parallel = 1)
    {s : State F} (h : exec env m sched = some s) (hm : s.main = MainPc.returned) :
    s.collector
      = (m.pages.flatMap fun p => workerSends env m p).foldl Collector.receive
          (newCollector m.pages) := by
  have hI := exec_inv env m sched h
  have hS := exec_sequential env m sched hP h
  obtain ⟨-, hpages, hall⟩ := returned_state env m hI hm
  rw [hS.collector, ← hpages, List.flatMap_map]
  congr 1
  apply List.flatMap_congr
  intro w hw
  obtain ⟨i, hi⟩ := List.mem_iff_getElem?.mp hw
  simp [Worker.sent, (hall i w hi).2]

end Seq

/-! ## The example of the specification: pages {A, B} and {B, C}, one token -/

section Example

variable {F : Type} [Float64 F] (env : Env F)

theorem exampleRequest_fields :
    exampleRequest.parallel = 1 ∧ exampleRequest.pagesize = 2 ∧ exampleRequest.pages = [1, 2] := by
  simp only [exampleRequest, newMenyApiRequest, List.foldl, pages, parallel, pageSize, rateLimit,
    and_self]

/-- The events the collector receives in the example, in order. -/
theorem example_events (a b1 b2 c : sourceRow F) (pa pb1 pb2 pc : Product F)
    (h1 : env.call 1 2 = .ok [a, b1]) (h2 : env.call 2 2 = .ok [b2, c])
    (ha : a.product env.toLower = .ok pa) (hb1 : b1.product env.toLower = .ok pb1)
    (hb2 : b2.product env.toLower = .ok pb2) (hc : c.product env.toLower = .ok pc) :
    (exampleRequest.pages.flatMap fun p => workerSends env exampleRequest p)
      = [Event.product pa, Event.pricePoint (a.pricePoint (env.now 1 0)),
         Event.vendor { ID := Itoa a.SupplierId, Name := a.Vendor },
         Event.product pb1, Event.pricePoint (b1.pricePoint (env.now 1 1)),
         Event.vendor { ID := Itoa b1.SupplierId, Name := b1.Vendor },
         Event.done 1,
         Event.product pb2, Event.pricePoint (b2.pricePoint (env.now 2 0)),
         Event.vendor { ID := Itoa b2.SupplierId, Name := b2.Vendor },
         Event.product pc, Event.pricePoint (c.pricePoint (env.now 2 1)),
         Event.vendor { ID := Itoa c.SupplierId, Name := c.Vendor },
         Event.done 2] := by
  obtain ⟨-, hps, hpg⟩ := exampleRequest_fields
  simp [hpg, workerSends, hps, h1, h2, response.Read, ha, hb1, hb2, hc]

end Example

/-- C9 as amended: in the run with pages [1, 2], page size 2, one token and no
delay, where page 1 yields rows with codes A, B and page 2 rows with codes B, C,
all with recognised units: every run can be continued until `Execute` returns, and
whenever it has returned the product map has exactly the keys A, B, C, holds at B
the product of the page-2 row (with one token it always arrives later), and the
duplicate warnings logged are exactly one duplicate-product warning for B followed
by one duplicate-price-point warning for B. -/
theorem example_run {F : Type} [Float64 F] (env : Env F) (A B C : String)
    (a b1 b2 c : sourceRow F) (pa pb1 pb2 pc : Product F)
    (hAB : A ≠ B) (hAC : A ≠ C) (hBC : B ≠ C)
    (ia : a.ImageGtin = A) (ib1 : b1.ImageGtin = B) (ib2 : b2.ImageGtin = B)
    (ic : c.ImageGtin = C)
    (h1 : env.call 1 2 = .ok [a, b1]) (h2 : env.call 2 2 = .ok [b2, c])
    (ha : a.product env.toLower = .ok pa) (hb1 : b1.product env.toLower = .ok pb1)
    (hb2 : b2.product env.toLower = .ok pb2) (hc : c.product env.toLower = .ok pc) :
    (∀ (sched : List Action) (s : State F), exec env exampleRequest sched = some s →
      ∃ ext s', exec env exampleRequest (sched ++ ext) = some s' ∧ s'.main = MainPc.returned)
    ∧ (∀ (sched : List Action) (s : State F), exec env exampleRequest sched = some s →
      s.main = MainPc.returned →
      (∀ k, k ∈ s.collector.productResult.keys ↔ k = A ∨ k = B ∨ k = C)
      ∧ s.collector.productResult.len = 3
      ∧ s.collector.productResult.get? B = some pb2
      ∧ s.collector.log.filter LogEntry.isWarn
          = [LogEntry.warnProduct B pb2.Name, LogEntry.warnPricePoint B]
      ∧ (s.collector.log.filter (LogEntry.warnsAbout B)).length = 2) := by
  obtain ⟨hpar, hps, hpg⟩ := exampleRequest_fields
  constructor
  · intro sched s h
    exact exec_completes env exampleRequest (by omega) (by rw [hpg]; decide)
      (by rw [hpg]; simp) h
  · intro sched s h hm
    have hcol := returned_collector_sequential env exampleRequest sched hpar h hm
    rw [example_events env a b1 b2 c pa pb1 pb2 pc h1 h2 ha hb1 hb2 hc] at hcol
    have ida := (product_ok_fields env.toLower a pa ha).1
    have idb1 := (product_ok_fields env.toLower b1 pb1 hb1).1
    have idb2 := (product_ok_fields env.toLower b2 pb2 hb2).1
    have idc := (product_ok_fields env.toLower c pc hc).1
    rw [ia] at ida; rw [ib1] at idb1; rw [ib2] at idb2; rw [ic] at idc
    have hBA : B ≠ A := fun e => hAB e.symm
    have hCA : C ≠ A := fun e => hAC e.symm
    have hCB : C ≠ B := fun e => hBC e.symm
    have hprod : s.collector.productResult = [(A, pa), (B, pb2), (C, pc)] := by
      rw [hcol, foldl_receive_productResult]
      simp [productsOf, newCollector, GoMap.set, ida, idb1, idb2, idc, hAB, hAC, hBC]
    have hlog : s.collector.log
        = [LogEntry.info "collector routine started", LogEntry.warnProduct B pb2.Name,
           LogEntry.warnPricePoint B] := by
      rw [hcol]
      simp [List.foldl, Collector.receive, newCollector, GoMap.set, GoMap.contains, GoMap.get?,
        sourceRow.pricePoint, sourceRow.id, ida, idb1, idb2, idc, ia, ib1, ib2, ic,
        hAB, hAC, hBC, hBA, hCA, hCB]
    refine ⟨?_, ?_, ?_, ?_, ?_⟩
    · intro k
      simp [hprod, GoMap.keys]
    · simp [hprod, GoMap.len]
    · simp [hprod, GoMap.get?, hAB]
    · simp [hlog, LogEntry.isWarn]
    · simp [hlog, LogEntry.warnsAbout]


/-- C9 as amended, on the example catalogue: from the start of the run on, and with
the complete schedule that handles page 1 and then page 2. -/
theorem example_run_witness :
    (∃ ext s', exec exampleEnv exampleRequest ([] ++ ext) = some s' ∧ s'.main = MainPc.returned)
    ∧ (exec exampleEnv exampleRequest exampleSchedule).isSome = true
    ∧ ∀ s, exec exampleEnv exampleRequest exampleSchedule = some s → s.main = MainPc.returned →
        s.collector.productResult.len = 3 :=
  let t := example_run exampleEnv "A" "B" "C" (rowOf "A" "KG" 7) (rowOf "B" "g" 8)
    (rowOf "B" "ml" 8) (rowOf "C" "stk" 9)
    { ID := "A", Name := "A", Description := "", Qty := { Unit := "kg", Value := 0 },
      VendorID := some "7", ImageURL := some "A", Categories := [] }
    { ID := "B", Name := "B", Description := "", Qty := { Unit := "kg", Value := 0 },
      VendorID := some "8", ImageURL := some "B", Categories := [] }
    { ID := "B", Name := "B", Description := "", Qty := { Unit := "L", Value := 0 },
      VendorID := some "8", ImageURL := some "B", Categories := [] }
    { ID := "C", Name := "C", Description := "", Qty := { Unit := "pcs", Value := 0 },
      VendorID := some "9", ImageURL := some "C", Categories := [] }
    (by decide) (by decide) (by decide) rfl rfl rfl rfl rfl rfl rfl rfl rfl rfl
  ⟨t.1 [] _ (init_eq exampleRequest), by decide, fun s h hm => (t.2 exampleSchedule s h hm).2.1⟩

/-- C9 as stated fails: in the example, under the schedule that handles page 1 and
then page 2, `Execute` returns with three products, and two duplicate warnings, not
one, are logged for the code B. -/
theorem example_run_logs_two_warnings :
    (exec exampleEnv exampleRequest exampleSchedule).map
        (fun s => (s.main, s.collector.productResult.keys,
          s.collector.log.filter (LogEntry.warnsAbout "B")))
      = some (MainPc.returned, ["A", "B", "C"],
          [LogEntry.warnProduct "B" "B", LogEntry.warnPricePoint "B"])
    ∧ ¬ ((exec exampleEnv exampleRequest exampleSchedule).map
        (fun s => (s.collector.log.filter (LogEntry.warnsAbout "B")).length) = some 1) := by
  constructor <;> decide

end Scraper
